import Mathlib

set_option maxRecDepth 100000

/-!
Verification development for the "loop over rows" service
(`modal_apps/loop_over_rows_fastapi_app.py`, with the sibling variant
`modal_apps/loop_over_rows_frontand_unified.py`).

The embedding models the service's data values as a JSON inductive type,
Python's string operations (`split`, `strip`, `replace`, f-strings) as
functions on `List Char`, `json.dumps` / `json.loads` as an executable
printer / parser pair, and the two processing pipelines (`freestyle` row
mode and `keyword-kombat` score mode) as pure functions parameterised by
the upstream model's reply function `gen : List Char → List Char`.

Modelling conventions:
* machine strings are `List Char`; Python byte/unicode subtleties are out
  of scope (`json.dumps` is modelled with `ensure_ascii` behaviour off:
  non-ASCII characters are emitted verbatim, and only the common escapes
  are produced);
* JSON numbers are modelled as integers (`Int`); no claim involves
  floating point values, and the only numeric operation in the source,
  `int(max(10, min(100, score)))`, agrees with the integer model on
  integers;
* an expression that raises an uncaught Python exception is modelled by
  `Option.none` (or by an `httpError 500` result at the endpoint);
* the upstream model call `model.generate_content(p).text` is modelled by
  a total reply function `gen`; the source's `(resp.text or "{}")` maps a
  missing reply to `"{}"`, which the model reproduces via the empty list
  standing for an absent text.
-/

/-- JSON values as produced by `json.loads` and consumed by `json.dumps`.
Object fields are kept in insertion order, mirroring Python dicts. -/
inductive Json where
  | null
  | bool (b : Bool)
  | num (n : Int)
  | str (s : List Char)
  | arr (xs : List Json)
  | obj (kvs : List (List Char × Json))

/-- The character `{`. -/
def lbrace : Char := Char.ofNat 123

/-- The character `}`. -/
def rbrace : Char := Char.ofNat 125

/-- Whitespace test matching the characters stripped by Python `str.strip()`
and skipped by the JSON decoder (space, newline, tab, carriage return). -/
def wsB (c : Char) : Bool :=
  c == ' ' || c == '\n' || c == '\t' || c == '\r'

/-- Boolean prefix test on character lists. -/
def isPre : List Char → List Char → Bool
  | [], _ => true
  | _ :: _, [] => false
  | a :: as, b :: bs => a == b && isPre as bs

/-- Substring test, modelling Python's `sep in txt` for a nonempty `sep`. -/
def hasSub (sep : List Char) : List Char → Bool
  | [] => sep.isEmpty
  | c :: rest => isPre sep (c :: rest) || hasSub sep rest

/-- Fuel-driven worker for `pySplit`; the fuel is an upper bound on the
number of characters scanned and `pySplit` always supplies enough. -/
def splitGo (sep : List Char) : Nat → List Char → List (List Char)
  | _, [] => [[]]
  | 0, cs => [cs]
  | f + 1, c :: rest =>
    if isPre sep (c :: rest) then
      [] :: splitGo sep f (rest.drop (sep.length - 1))
    else
      match splitGo sep f rest with
      | [] => [[c]]
      | hd :: tl => (c :: hd) :: tl

/-- Python `txt.split(sep)` for a nonempty separator: splits at every
leftmost non-overlapping occurrence, keeping empty chunks. -/
def pySplit (sep cs : List Char) : List (List Char) :=
  splitGo sep cs.length cs

/-- Fuel-driven worker for `pyReplace`. -/
def replGo (old new : List Char) : Nat → List Char → List Char
  | _, [] => []
  | 0, cs => cs
  | f + 1, c :: rest =>
    if isPre old (c :: rest) then
      new ++ replGo old new f (rest.drop (old.length - 1))
    else
      c :: replGo old new f rest

/-- Python `s.replace(old, new)` for a nonempty `old`: replaces every
leftmost non-overlapping occurrence. -/
def pyReplace (s old new : List Char) : List Char :=
  replGo old new s.length s

/-- Python `str.strip()`: removes leading and trailing whitespace. -/
def pyStrip (cs : List Char) : List Char :=
  ((cs.dropWhile wsB).reverse.dropWhile wsB).reverse

/-- Python `(text or "{}")` applied to a model reply: an absent or empty
reply is replaced by the literal `"{}"`. -/
def orBraces (cs : List Char) : List Char :=
  if cs.isEmpty then [lbrace, rbrace] else cs

/-- Decimal digits of a natural number, fuel-driven (`natToChars` always
supplies enough fuel). -/
def digitsGo : Nat → Nat → List Char → List Char
  | 0, n, acc => Char.ofNat (48 + n % 10) :: acc
  | f + 1, n, acc =>
    if n < 10 then Char.ofNat (48 + n) :: acc
    else digitsGo f (n / 10) (Char.ofNat (48 + n % 10) :: acc)

/-- Decimal rendering of a natural number, as Python `str`. -/
def natToChars (n : Nat) : List Char := digitsGo n n []

/-- Decimal rendering of an integer, as Python `str` / `json.dumps`. -/
def intToChars (i : Int) : List Char :=
  if i < 0 then '-' :: natToChars (-i).toNat else natToChars i.toNat

/-- String escaping performed by `json.dumps` (with non-ASCII characters
emitted verbatim); the escapes the service's values can contain. -/
def escChar (c : Char) : List Char :=
  if c = '"' then ['\\', '"']
  else if c = '\\' then ['\\', '\\']
  else if c = '\n' then ['\\', 'n']
  else if c = '\t' then ['\\', 't']
  else if c = '\r' then ['\\', 'r']
  else [c]

/-- Escape a whole string body for `json.dumps`. -/
def escString (s : List Char) : List Char :=
  s.foldr (fun c acc => escChar c ++ acc) []

mutual

/-- Python `json.dumps` with its default separators `", "` and `": "`. -/
def dumps : Json → List Char
  | Json.null => "null".data
  | Json.bool true => "true".data
  | Json.bool false => "false".data
  | Json.num n => intToChars n
  | Json.str s => '"' :: escString s ++ ['"']
  | Json.arr xs => '[' :: dumpsList xs ++ [']']
  | Json.obj kvs => lbrace :: dumpsPairs kvs ++ [rbrace]

/-- Comma-joined rendering of array elements. -/
def dumpsList : List Json → List Char
  | [] => []
  | [x] => dumps x
  | x :: y :: t => dumps x ++ ", ".data ++ dumpsList (y :: t)

/-- Comma-joined rendering of object entries. -/
def dumpsPairs : List (List Char × Json) → List Char
  | [] => []
  | [(k, v)] => '"' :: escString k ++ "\": ".data ++ dumps v
  | (k, v) :: p :: t =>
    '"' :: escString k ++ "\": ".data ++ dumps v ++ ", ".data ++ dumpsPairs (p :: t)

end

/-- Lookup in an ordered association list (Python dict lookup; every dict
built by this model has unique keys, so the first match is the match). -/
def objGet : List (List Char × Json) → List Char → Option Json
  | [], _ => none
  | (k', v) :: rest, k => if k' = k then some v else objGet rest k

/-- Python `d.get(k, default)`. -/
def objGetD (kvs : List (List Char × Json)) (k : List Char) (d : Json) : Json :=
  (objGet kvs k).getD d

/-- Python dict assignment `d[k] = v`: updates the value in place if the
key exists (keeping its position), otherwise appends the entry. -/
def objInsert : List (List Char × Json) → List Char → Json → List (List Char × Json)
  | [], k, v => [(k, v)]
  | (k', v') :: rest, k, v =>
    if k' = k then (k', v) :: rest else (k', v') :: objInsert rest k v

/-- Build a dict from a list of entries by repeated assignment, as the
JSON decoder and dict comprehensions do (later duplicate keys overwrite). -/
def buildDict (ps : List (List Char × Json)) : List (List Char × Json) :=
  ps.foldl (fun acc kv => objInsert acc kv.1 kv.2) []

/-- Merge a second dict into a first by repeated assignment, modelling
`{**a, **b}` (entries of `b` win on key clashes). -/
def dictMerge (a b : List (List Char × Json)) : List (List Char × Json) :=
  b.foldl (fun acc kv => objInsert acc kv.1 kv.2) a

/-- Python truthiness of a JSON value (`if o:`). -/
def pyTruthy : Json → Bool
  | Json.null => false
  | Json.bool b => b
  | Json.num n => !(n == 0)
  | Json.str s => !s.isEmpty
  | Json.arr xs => !xs.isEmpty
  | Json.obj kvs => !kvs.isEmpty

/-- Numeric view of a JSON value, modelling both
`isinstance(v, (int, float))` and the left operand of `v >= threshold`:
Python `bool` is an `int` subclass, so booleans count as numbers; any
other non-number makes the comparison raise `TypeError` (`none`). -/
def pyNumVal : Json → Option Int
  | Json.num n => some n
  | Json.bool b => some (if b then 1 else 0)
  | _ => none

/-- Skip JSON/`strip` whitespace. -/
def skipWs : List Char → List Char
  | [] => []
  | c :: rest => if wsB c then skipWs rest else c :: rest

/-- Unescape one backslash escape inside a JSON string literal (the
`\\uXXXX` form is not modelled; `dumps` never produces it here). -/
def unescChar (c : Char) : Option Char :=
  if c = '"' then some '"'
  else if c = '\\' then some '\\'
  else if c = '/' then some '/'
  else if c = 'n' then some '\n'
  else if c = 't' then some '\t'
  else if c = 'r' then some '\r'
  else if c = 'b' then some (Char.ofNat 8)
  else if c = 'f' then some (Char.ofNat 12)
  else none

/-- Parse the body of a JSON string literal after the opening quote,
returning the decoded string and the remainder after the closing quote. -/
def parseStrBody : List Char → Option (List Char × List Char)
  | [] => none
  | c :: rest =>
    if c = '"' then some ([], rest)
    else if c = '\\' then
      match rest with
      | [] => none
      | e :: rest2 =>
        match unescChar e with
        | none => none
        | some u =>
          match parseStrBody rest2 with
          | none => none
          | some (s, r) => some (u :: s, r)
    else
      match parseStrBody rest with
      | none => none
      | some (s, r) => some (c :: s, r)

/-- Consume a maximal run of decimal digits, folding them onto `acc`. -/
def parseDigits : List Char → Nat → Nat × List Char
  | [], acc => (acc, [])
  | c :: rest, acc =>
    if c.isDigit then parseDigits rest (acc * 10 + (c.toNat - 48))
    else (acc, c :: rest)

/-- Match a literal word and return the remainder. -/
def litP (w cs : List Char) : Option (List Char) :=
  if isPre w cs then some (cs.drop w.length) else none

mutual

/-- Parse one JSON value (fuel-driven recursion; `loads` supplies fuel
exceeding the input length, which the round-trip lemmas show suffices). -/
def parseVal : Nat → List Char → Option (Json × List Char)
  | 0, _ => none
  | f + 1, cs0 =>
    match skipWs cs0 with
    | [] => none
    | c :: rest =>
      if c = '"' then
        match parseStrBody rest with
        | none => none
        | some (s, r) => some (Json.str s, r)
      else if c = lbrace then
        match skipWs rest with
        | [] => none
        | c2 :: r2 =>
          if c2 = rbrace then some (Json.obj [], r2)
          else
            match parseObjItems f (c2 :: r2) with
            | none => none
            | some (ps, r) => some (Json.obj (buildDict ps), r)
      else if c = '[' then
        match skipWs rest with
        | [] => none
        | c2 :: r2 =>
          if c2 = ']' then some (Json.arr [], r2)
          else
            match parseArrItems f (c2 :: r2) with
            | none => none
            | some (vs, r) => some (Json.arr vs, r)
      else if c = 't' then
        match litP "rue".data rest with
        | none => none
        | some r => some (Json.bool true, r)
      else if c = 'f' then
        match litP "alse".data rest with
        | none => none
        | some r => some (Json.bool false, r)
      else if c = 'n' then
        match litP "ull".data rest with
        | none => none
        | some r => some (Json.null, r)
      else if c = '-' then
        match rest with
        | [] => none
        | d :: _ =>
          if d.isDigit then
            let (m, r) := parseDigits rest 0
            some (Json.num (-(m : Int)), r)
          else none
      else if c.isDigit then
        let (m, r) := parseDigits (c :: rest) 0
        some (Json.num (m : Int), r)
      else none

/-- Parse the elements of a nonempty JSON array after the opening `[`. -/
def parseArrItems : Nat → List Char → Option (List Json × List Char)
  | 0, _ => none
  | f + 1, cs =>
    match parseVal f cs with
    | none => none
    | some (v, r) =>
      match skipWs r with
      | ',' :: r2 =>
        match parseArrItems f r2 with
        | none => none
        | some (vs, r3) => some (v :: vs, r3)
      | ']' :: r2 => some ([v], r2)
      | _ => none

/-- Parse the entries of a nonempty JSON object after the opening brace. -/
def parseObjItems : Nat → List Char → Option (List (List Char × Json) × List Char)
  | 0, _ => none
  | f + 1, cs =>
    match skipWs cs with
    | '"' :: r =>
      match parseStrBody r with
      | none => none
      | some (k, r2) =>
        match skipWs r2 with
        | ':' :: r3 =>
          match parseVal f r3 with
          | none => none
          | some (v, r4) =>
            match skipWs r4 with
            | ',' :: r5 =>
              match parseObjItems f r5 with
              | none => none
              | some (ps, r6) => some ((k, v) :: ps, r6)
            | c5 :: r5 =>
              if c5 = rbrace then some ([(k, v)], r5) else none
            | [] => none
        | _ => none
    | _ => none

end

/-- Python `json.loads`: parse one JSON value and require only whitespace
after it ("Extra data" otherwise). Floats, exponents, leading zeros and
`\\uXXXX` escapes are outside the modelled fragment; no service value or
claim exercises them. -/
def loads (cs : List Char) : Option Json :=
  match parseVal (cs.length + 1) cs with
  | none => none
  | some (v, r) => if (skipWs r).isEmpty then some v else none

/-- The fence marker used by the extraction heuristic. -/
def triTicks : List Char := "```".data

/-- The labelled fence marker `"```json"`. -/
def jsonTicks : List Char := "```json".data

/-- Code-fence stripping performed before `json.loads` in every pipeline:

```python
if "```" in txt:
    try:
        txt = txt.split("```json")[1].split("```")[0]
    except Exception:
        try:
            txt = txt.split("```")[1].split("```")[0]
        except Exception:
            pass
```

Indexing `[1]` raises `IndexError` when the split produced a single chunk,
which triggers the fallback; `[0]` always exists. -/
def stripFences (txt : List Char) : List Char :=
  if hasSub triTicks txt then
    match pySplit jsonTicks txt with
    | _ :: x :: _ => ((pySplit triTicks x).headD [])
    | _ =>
      match pySplit triTicks txt with
      | _ :: y :: _ => ((pySplit triTicks y).headD [])
      | _ => txt
  else txt

/-- Shared reply postprocessing: `txt = (text or "{}").strip()`, fence
stripping, then `json.loads`; `none` is the `json.loads` exception. -/
def extractRaw (reply : List Char) : Option Json :=
  loads (stripFences (pyStrip (orBraces reply)))

/-- Wrapping step of the row-mode extractor: a parsed non-object value is
wrapped as `{"output": value}`. -/
def wrapNonObj : Json → Json
  | Json.obj kvs => Json.obj kvs
  | v => Json.obj [("output".data, v)]

/-- Row-mode extraction (`run_row` after the model call): parse the reply
and wrap non-objects, so a successful extraction is always an object. -/
def extractObj (reply : List Char) : Option Json :=
  match extractRaw reply with
  | none => none
  | some v => some (wrapNonObj v)

/-- The `FreestyleRequest` pydantic model (row mode). `data` keeps the
JSON object's insertion order; `batch_size` is an `int` with default 10. -/
structure FreestyleRequest where
  data : List (List Char × List Json)
  headers : List (List Char)
  prompt : List Char
  batch_size : Int := 10
  enable_google_search : Bool := false
  test_mode : Bool := false
  mode : Option (List Char) := none

/-- The `KeywordKombatRequest` pydantic model (score mode). -/
structure KeywordKombatRequest where
  keywords : List (List Char)
  company_url : List Char
  keyword_variable : List Char := "keyword".data
  enable_google_search : Bool := false
  test_mode : Bool := false
  mode : Option (List Char) := none

/-- Python `range(start, stop, step)` (fuel-driven, ascending case). -/
def rangeUpGo : Nat → Int → Int → Int → List Int
  | 0, _, _, _ => []
  | f + 1, start, stop, step =>
    if start < stop then start :: rangeUpGo f (start + step) stop step else []

/-- Python `range(start, stop, step)` (fuel-driven, descending case). -/
def rangeDownGo : Nat → Int → Int → Int → List Int
  | 0, _, _, _ => []
  | f + 1, start, stop, step =>
    if stop < start then start :: rangeDownGo f (start + step) stop step else []

/-- Python `range(start, stop, step)`: raises `ValueError` (`none`) when
`step = 0`, counts down for negative steps. -/
def pyRange (start stop step : Int) : Option (List Int) :=
  if 0 < step then some (rangeUpGo (stop - start).toNat start stop step)
  else if step < 0 then some (rangeDownGo (start - stop).toNat start stop step)
  else none

/-- Python slice `l[a:b]` for the nonnegative bounds used by the batching
loop (`items[i:i+batch_size]` with `i` drawn from an ascending range). -/
def pySlice {α : Type} (l : List α) (a b : Int) : List α :=
  (l.drop a.toNat).take (b - a).toNat

/-- Prompt built per row: a JSON dump of the header/value dict, then the
caller's instructions. -/
def rowPrompt (headers : List (List Char)) (instr : List Char) (rv : List Json) : List Char :=
  "Row: ".data ++ dumps (Json.obj (buildDict (headers.zip rv)))
    ++ "\n\nInstructions: ".data ++ instr ++ "\n\nReturn strict JSON only.".data

/-- The per-row worker `run_row`: build the prompt, call the model, and
extract an object; any failure drops the row (`none`). -/
def run_row (gen : List Char → List Char) (req : FreestyleRequest)
    (rk : List Char) (rv : List Json) : Option (List Char × Json) :=
  match extractObj (orBraces (gen (rowPrompt req.headers req.prompt rv))) with
  | none => none
  | some o => some (rk, o)

/-- Result-row assembly `{"row_key": row_key, **obj}`: a dict literal whose
`row_key` entry is overwritten if the extracted object also has one. -/
def mergeRowKey (rk : List Char) (o : Json) : Json :=
  match o with
  | Json.obj kvs => Json.obj (dictMerge [("row_key".data, Json.str rk)] kvs)
  | v => v

/-- The row-mode response dict
`{"success": True, "results": ..., "processed_count": ..., "total_count": ...}`. -/
structure RowsResult where
  success : Bool
  results : List Json
  processed_count : Nat
  total_count : Nat

/-- Successful outputs of one batch slice, in task order
(`asyncio.gather` returns results in the order the tasks were passed);
failed rows are skipped by the `if out is None: continue` guard. -/
def sliceResults (gen : List Char → List Char) (req : FreestyleRequest)
    (batch : List (List Char × List Json)) : List Json :=
  batch.filterMap fun kv =>
    match run_row gen req kv.1 kv.2 with
    | none => none
    | some (rk, o) => some (mergeRowKey rk o)

/-- The `process_rows_freestyle` pipeline: slice the items with
`range(0, len(items), batch_size)`, run each slice's rows, and append the
slice's successes in order. `none` is the `ValueError` raised by a zero
step. -/
def process_rows_freestyle (gen : List Char → List Char) (req : FreestyleRequest) :
    Option RowsResult :=
  let items := req.data
  match pyRange 0 items.length req.batch_size with
  | none => none
  | some idxs =>
    let results := idxs.foldl (fun acc i =>
      acc ++ sliceResults gen req (pySlice items i (i + req.batch_size))) []
    some { success := true, results := results,
           processed_count := results.length, total_count := items.length }

/-- The batch slices the orchestrator forms, as computed by the loop
header `for i in range(0, len(items), batch_size)`. -/
def slicesOf {α : Type} (items : List α) (bs : Int) : Option (List (List α)) :=
  match pyRange 0 items.length bs with
  | none => none
  | some idxs => some (idxs.map fun i => pySlice items i (i + bs))

/-- The contribution of one `(row_key, row_values)` item to the results
list: `run_row`'s output with the `row_key` merged in, `none` when the
row was dropped by the `if out is None: continue` guard. -/
def rowOut (gen : List Char → List Char) (req : FreestyleRequest)
    (kv : List Char × List Json) : Option Json :=
  match run_row gen req kv.1 kv.2 with
  | none => none
  | some (rk, o) => some (mergeRowKey rk o)

mutual

/-- Python `str()` conversion used by f-string interpolation of a value
drawn from a decoded JSON dict (strings render verbatim, `True` / `False`
/ `None` use Python spellings, containers use `repr`). -/
def pyStr : Json → List Char
  | Json.str s => s
  | Json.num n => intToChars n
  | Json.bool true => "True".data
  | Json.bool false => "False".data
  | Json.null => "None".data
  | Json.arr xs => '[' :: pyReprList xs ++ [']']
  | Json.obj kvs => lbrace :: pyReprPairs kvs ++ [rbrace]

/-- Python `repr()` of a value inside a container (strings get quotes). -/
def pyRepr : Json → List Char
  | Json.str s => Char.ofNat 39 :: s ++ [Char.ofNat 39]
  | Json.num n => intToChars n
  | Json.bool true => "True".data
  | Json.bool false => "False".data
  | Json.null => "None".data
  | Json.arr xs => '[' :: pyReprList xs ++ [']']
  | Json.obj kvs => lbrace :: pyReprPairs kvs ++ [rbrace]

/-- Comma-joined `repr` of list elements. -/
def pyReprList : List Json → List Char
  | [] => []
  | [x] => pyRepr x
  | x :: y :: t => pyRepr x ++ ", ".data ++ pyReprList (y :: t)

/-- Comma-joined `repr` of dict entries. -/
def pyReprPairs : List (List Char × Json) → List Char
  | [] => []
  | [(k, v)] => Char.ofNat 39 :: k ++ [Char.ofNat 39] ++ ": ".data ++ pyRepr v
  | (k, v) :: p :: t =>
    Char.ofNat 39 :: k ++ [Char.ofNat 39] ++ ": ".data ++ pyRepr v ++ ", ".data
      ++ pyReprPairs (p :: t)

end

/-- The key `"RelevanceScore"`. -/
def relKey : List Char := "RelevanceScore".data

/-- The placeholder `"{{ keyword }}"` substituted per keyword. -/
def kwPlaceholder : List Char := "\x7b\x7b keyword \x7d\x7d".data

/-- The company-research prompt of `process_keyword_kombat`, with the
optional web-search directive. -/
def researchPrompt (req : KeywordKombatRequest) : List Char :=
  let base := "Analysiere ".data ++ req.company_url
    ++ " und gib JSON mit company_name, company_description zurück.".data
  if req.enable_google_search then "Recherchiere im Web: ".data ++ base else base

/-- The scoring template f-string, with the company name and description
already interpolated. -/
def kombatTpl (name desc : List Char) : List Char :=
  "INPUT:\nKeyword: \"\x7b\x7b keyword \x7d\x7d\"\n\nSYSTEM:\nDu agierst als deutschsprachiger SEO-Analyst für **".data
    ++ name ++ "** – ".data ++ desc
    ++ ".\n\nGib ausschließlich JSON zurück:\n\x7b\n  \"Keyword\": \"<keyword>\",\n  \"RelevanceScore\": <integer>,\n  \"Rationale\": \"<1–2 Sätze>\"\n\x7d".data

/-- Company-research step: extract JSON from the research reply, falling
back to `{"company_name": company_url}` when `json.loads` raises. -/
def companyOf (gen : List Char → List Char) (req : KeywordKombatRequest) : Json :=
  match extractRaw (gen (researchPrompt req)) with
  | some c => c
  | none => Json.obj [("company_name".data, Json.str req.company_url)]

/-- Template construction `tpl = f"... {company.get('company_name','')} ..."`:
calling `.get` on a non-dict research result raises an uncaught
`AttributeError` (`none`), failing the whole request. -/
def mkTpl (company : Json) : Option (List Char) :=
  match company with
  | Json.obj kvs =>
    some (kombatTpl (pyStr (objGetD kvs "company_name".data (Json.str [])))
      (pyStr (objGetD kvs "company_description".data (Json.str []))))
  | _ => none

/-- Per-keyword scorer `score(kw)`: substitute the keyword into the
template, call the model, extract JSON, and clamp a numeric
`RelevanceScore` to `[10, 100]` (a missing score reads as `0` and is
clamped to `10`; a non-numeric score is left untouched). Any exception,
including `.get` on a non-dict parse, drops the keyword (`none`). -/
def scoreOne (gen : List Char → List Char) (tpl kw : List Char) : Option Json :=
  match extractRaw (gen (pyReplace tpl kwPlaceholder kw)) with
  | none => none
  | some (Json.obj kvs) =>
    match pyNumVal (objGetD kvs relKey (Json.num 0)) with
    | some n => some (Json.obj (objInsert kvs relKey (Json.num (max 10 (min 100 n)))))
    | none => some (Json.obj kvs)
  | some _ => none

/-- The keywords actually scored: the first three in test mode. -/
def kwsOf (req : KeywordKombatRequest) : List (List Char) :=
  if req.test_mode then req.keywords.take 3 else req.keywords

/-- The surviving candidate set `results_raw = [o for o in outs if o]`:
successful extractions that are truthy (a non-empty dict). -/
def kombatRaw (gen : List Char → List Char) (req : KeywordKombatRequest)
    (tpl : List Char) : List Json :=
  (((kwsOf req).map (scoreOne gen tpl)).filterMap id).filter pyTruthy

/-- One filtering pass `[o for o in results_raw if o.get("RelevanceScore", 0) >= k]`.
Comparing a non-numeric score with an `int` raises `TypeError` (`none`),
outside any per-item handler. -/
def filterGeM (k : Int) : List Json → Option (List Json)
  | [] => some []
  | o :: rest =>
    match o with
    | Json.obj kvs =>
      match pyNumVal (objGetD kvs relKey (Json.num 0)) with
      | none => none
      | some n =>
        match filterGeM k rest with
        | none => none
        | some tl => some (if k ≤ n then o :: tl else tl)
    | _ => none

/-- The synthetic test-mode row for one keyword. -/
def placeholderRow (kw : List Char) : Json :=
  Json.obj [("Keyword".data, Json.str kw), (relKey, Json.num 90),
    ("Rationale".data, Json.str "Testmodus: Beispielausgabe für die UI".data)]

/-- Scoring and filtering with the template fixed: score every keyword,
keep truthy successes, filter at 80; on an empty result return synthetic
rows in test mode, or re-filter the candidates at 50 in production. -/
def kombatRun (gen : List Char → List Char) (req : KeywordKombatRequest)
    (tpl : List Char) : Option (List Json) :=
  let raw := kombatRaw gen req tpl
  match filterGeM 80 raw with
  | none => none
  | some results =>
    if results.isEmpty then
      if req.test_mode then some ((kwsOf req).map placeholderRow)
      else filterGeM 50 raw
    else some results

/-- The full `process_keyword_kombat` pipeline of
`loop_over_rows_fastapi_app.py`. -/
def process_keyword_kombat (gen : List Char → List Char)
    (req : KeywordKombatRequest) : Option (List Json) :=
  match mkTpl (companyOf gen req) with
  | none => none
  | some tpl => kombatRun gen req tpl

/-- Read a JSON string. -/
def asStr : Json → Option (List Char)
  | Json.str s => some s
  | _ => none

/-- Read a JSON boolean. -/
def asBool : Json → Option Bool
  | Json.bool b => some b
  | _ => none

/-- Read a JSON integer. -/
def asInt : Json → Option Int
  | Json.num n => some n
  | _ => none

/-- Read a JSON array of strings (`List[str]`). -/
def asStrList : Json → Option (List (List Char))
  | Json.arr xs => xs.foldr (fun x acc =>
      match asStr x, acc with
      | some s, some t => some (s :: t)
      | _, _ => none) (some [])
  | _ => none

/-- Read a `Dict[str, List[Any]]` (the `data` field of row mode). -/
def asRows : Json → Option (List (List Char × List Json))
  | Json.obj kvs => kvs.foldr (fun kv acc =>
      match kv.2, acc with
      | Json.arr vs, some t => some ((kv.1, vs) :: t)
      | _, _ => none) (some [])
  | _ => none

/-- Read an optional field with a default: absent means the default,
present means the value must be well-typed. -/
def optField {α : Type} (body : List (List Char × Json)) (k : List Char)
    (read : Json → Option α) (d : α) : Option α :=
  match objGet body k with
  | none => some d
  | some v => read v

/-- Read the `Optional[str]` `mode` field. -/
def asOptStr : Json → Option (Option (List Char))
  | Json.null => some none
  | Json.str s => some (some s)
  | _ => none

/-- Pydantic validation `KeywordKombatRequest(**body)` (modelled with
strict field types; the claims exercise only missing fields and
well-typed bodies, where pydantic's lax coercions play no role). -/
def parseKombat (body : List (List Char × Json)) : Option KeywordKombatRequest :=
  match objGet body "keywords".data, objGet body "company_url".data with
  | some kwv, some urlv =>
    match asStrList kwv, asStr urlv,
        optField body "keyword_variable".data asStr "keyword".data,
        optField body "enable_google_search".data asBool false,
        optField body "test_mode".data asBool false,
        optField body "mode".data asOptStr none with
    | some kws, some url, some kv, some gs, some tm, some md =>
      some { keywords := kws, company_url := url, keyword_variable := kv,
             enable_google_search := gs, test_mode := tm, mode := md }
    | _, _, _, _, _, _ => none
  | _, _ => none

/-- Pydantic validation `FreestyleRequest(**body)`. -/
def parseFreestyle (body : List (List Char × Json)) : Option FreestyleRequest :=
  match objGet body "data".data, objGet body "headers".data, objGet body "prompt".data with
  | some dv, some hv, some pv =>
    match asRows dv, asStrList hv, asStr pv,
        optField body "batch_size".data asInt 10,
        optField body "enable_google_search".data asBool false,
        optField body "test_mode".data asBool false,
        optField body "mode".data asOptStr none with
    | some rows, some hs, some pr, some bs, some gs, some tm, some md =>
      some { data := rows, headers := hs, prompt := pr, batch_size := bs,
             enable_google_search := gs, test_mode := tm, mode := md }
    | _, _, _, _, _, _, _ => none
  | _, _, _ => none

/-- Mode selection `(body.get("mode") or "freestyle").strip()`: a falsy
value (absent, `None`, `""`, `0`, …) selects `"freestyle"`; a truthy
non-string has no `.strip` and raises an uncaught `AttributeError`. -/
def modeOf (body : List (List Char × Json)) : Option (List Char) :=
  let v := objGetD body "mode".data Json.null
  if pyTruthy v then
    match v with
    | Json.str s => some (pyStrip s)
    | _ => none
  else some "freestyle".data

/-- Outcome of one `POST /process` call. Wall-clock `processing_time` is
not modelled; the exception text inside a `detail` string is abstracted
to the failure site's label, with the handler's literal
`"Processing failed: "` prefix kept. -/
inductive EndpointResult where
  | okKombat (results : List Json) (items_processed : Nat)
  | okRows (out : RowsResult)
  | httpError (status : Nat) (detail : List Char)

/-- HTTP status of an endpoint outcome. -/
def statusOf : EndpointResult → Nat
  | EndpointResult.okKombat _ _ => 200
  | EndpointResult.okRows _ => 200
  | EndpointResult.httpError s _ => s

/-- The handler's `HTTPException(status_code=500, detail=f"Processing failed: {e}")`. -/
def procFail (msg : List Char) : List Char :=
  "Processing failed: ".data ++ msg

/-- The `POST /process` handler of `loop_over_rows_fastapi_app.py`: mode
dispatch happens before the `try`, and everything inside it — pydantic
validation included — is caught and rethrown as HTTP 500. -/
def process_unified (gen : List Char → List Char)
    (body : List (List Char × Json)) : EndpointResult :=
  match modeOf body with
  | none => EndpointResult.httpError 500 "Internal Server Error".data
  | some mode =>
    if mode = "keyword-kombat".data then
      match parseKombat body with
      | none => EndpointResult.httpError 500 (procFail "ValidationError".data)
      | some req =>
        match process_keyword_kombat gen req with
        | none => EndpointResult.httpError 500 (procFail "TypeError".data)
        | some results => EndpointResult.okKombat results results.length
    else
      match parseFreestyle body with
      | none => EndpointResult.httpError 500 (procFail "ValidationError".data)
      | some req =>
        match process_rows_freestyle gen req with
        | none => EndpointResult.httpError 500 (procFail "ValueError".data)
        | some out => EndpointResult.okRows out

/-- Prepend a prefix onto the first chunk of a split result. -/
def consHead (pre : List Char) : List (List Char) → List (List Char)
  | [] => [pre]
  | h :: t => (pre ++ h) :: t

/-- Wrap a serialized payload in a labelled fenced code block, the shape
the extraction heuristic is designed to undo. -/
def fenceWrap (s : List Char) : List Char :=
  jsonTicks ++ '\n' :: s ++ '\n' :: triTicks

/-- Head-of-input digit test (used to state that a remainder cannot
extend a parsed number). -/
def digitHead : List Char → Bool
  | [] => false
  | c :: _ => c.isDigit

/-- Uniqueness of dict keys (holds for every dict a Python program can
build, since assignment overwrites). -/
def nodupKeys : List (List Char × Json) → Bool
  | [] => true
  | (k, _) :: rest => !(rest.any fun kv => kv.1 = k) && nodupKeys rest

mutual

/-- Well-formedness of a JSON value as a Python object: every object's
keys are distinct. -/
def wfB : Json → Bool
  | Json.null => true
  | Json.bool _ => true
  | Json.num _ => true
  | Json.str _ => true
  | Json.arr xs => wfList xs
  | Json.obj kvs => nodupKeys kvs && wfPairs kvs

/-- Well-formedness of array elements. -/
def wfList : List Json → Bool
  | [] => true
  | x :: t => wfB x && wfList t

/-- Well-formedness of object entry values. -/
def wfPairs : List (List Char × Json) → Bool
  | [] => true
  | (_, v) :: t => wfB v && wfPairs t

end

mutual

/-- Fuel sufficient for `parseVal` to parse the dump of a value. -/
def fuelV : Json → Nat
  | Json.null => 1
  | Json.bool _ => 1
  | Json.num _ => 1
  | Json.str _ => 1
  | Json.arr xs => 1 + fuelL xs
  | Json.obj kvs => 1 + fuelP kvs

/-- Fuel sufficient for `parseArrItems` over dumped elements. -/
def fuelL : List Json → Nat
  | [] => 0
  | x :: t => 1 + fuelV x + fuelL t

/-- Fuel sufficient for `parseObjItems` over dumped entries. -/
def fuelP : List (List Char × Json) → Nat
  | [] => 0
  | (_, v) :: t => 1 + fuelV v + fuelP t

end

/-- Consecutive chunks of a list (the reference shape of the batching
loop's slices). -/
def chunksGo {α : Type} (bs : Nat) : Nat → List α → List (List α)
  | 0, l => if l.isEmpty then [] else [l]
  | f + 1, l => if l.isEmpty then [] else l.take bs :: chunksGo bs f (l.drop bs)

/-- Consecutive chunks of length `bs` (last chunk possibly shorter). -/
def chunksOf {α : Type} (bs : Nat) (l : List α) : List (List α) :=
  chunksGo bs l.length l

/-- Reply function used by several concrete scenarios: scores `alpha`
at 85 and `beta` at 40, and answers the research call with `{}`. -/
def genMixed : List Char → List Char := fun p =>
  if hasSub "alpha".data p then "\x7b\"Keyword\": \"alpha\", \"RelevanceScore\": 85\x7d".data
  else if hasSub "beta".data p then "\x7b\"Keyword\": \"beta\", \"RelevanceScore\": 40\x7d".data
  else "\x7b\x7d".data

/-- Reply function whose replies never parse as JSON. -/
def genBad : List Char → List Char := fun _ => "nope".data

/-- Reply function returning a non-numeric `RelevanceScore` for `alpha`. -/
def genTypeErr : List Char → List Char := fun p =>
  if hasSub "alpha".data p then "\x7b\"RelevanceScore\": \"high\"\x7d".data
  else "\x7b\x7d".data

/-- Reply function claiming a foreign `row_key` for every row. -/
def genRowKey : List Char → List Char := fun _ => "\x7b\"row_key\": \"evil\"\x7d".data

/-- Stub reply used by the row-mode happy path. -/
def genSummary : List Char → List Char := fun _ => "\x7b\"summary\": \"ok\"\x7d".data

/-- Score request with two keywords in test mode. -/
def reqTwoKwTest : KeywordKombatRequest :=
  { keywords := ["alpha".data, "beta".data], company_url := "x.example".data, test_mode := true }

/-- Score request with one keyword in production mode. -/
def reqOneKwProd : KeywordKombatRequest :=
  { keywords := ["alpha".data], company_url := "x.example".data, test_mode := false }

/-- Score request carrying the mode tag, as the endpoint builds it. -/
def reqOneKwMode : KeywordKombatRequest :=
  { keywords := ["alpha".data], company_url := "x.example".data,
    mode := some "keyword-kombat".data }

/-- Row request with a single row. -/
def reqOneRow : FreestyleRequest :=
  { data := [("r1".data, [Json.str "a".data])], headers := ["col".data], prompt := "p".data }

/-- Row request with two rows. -/
def reqTwoRows : FreestyleRequest :=
  { data := [("r1".data, [Json.str "a".data]), ("r2".data, [Json.str "b".data])],
    headers := ["col".data], prompt := "p".data }

/-- Row request with `batch_size = 0`. -/
def reqBatchZero : FreestyleRequest :=
  { data := [("r1".data, [])], headers := [], prompt := [], batch_size := 0 }

/-- Row request with a negative `batch_size`. -/
def reqBatchNeg : FreestyleRequest :=
  { data := [("r1".data, [])], headers := [], prompt := [], batch_size := -2 }

/-- Request body that fails `KeywordKombatRequest` validation (required
fields missing). -/
def bodyMissing : List (List Char × Json) := [("mode".data, Json.str "keyword-kombat".data)]

/-- Well-formed score-mode request body with one keyword. -/
def bodyOneKw : List (List Char × Json) :=
  [("mode".data, Json.str "keyword-kombat".data),
   ("keywords".data, Json.arr [Json.str "alpha".data]),
   ("company_url".data, Json.str "x.example".data)]

/-- Well-formed row-mode request body with `batch_size = 0`. -/
def bodyBatchZero : List (List Char × Json) :=
  [("data".data, Json.obj [("r1".data, Json.arr [])]),
   ("headers".data, Json.arr []),
   ("prompt".data, Json.str []),
   ("batch_size".data, Json.num 0)]

/-- Twenty-three items for the batch-boundary scenario. -/
def items23 : List (List Char × List Json) :=
  (List.range 23).map fun i => (natToChars i, [])

/-- Row request with 23 rows and the default `batch_size = 10`. -/
def reqItems23 : FreestyleRequest :=
  { data := items23, headers := ["col".data], prompt := "p".data }

/-- JSON object whose serialization contains a fence marker inside a
string value. -/
def fenceObj : Json := Json.obj [("a".data, Json.str "```".data)]

/-- JSON object used to witness the extraction round trip. -/
def rtObj : Json :=
  Json.obj [("a".data, Json.str "x\"y".data), ("b".data, Json.num 230),
    ("c".data, Json.arr [Json.bool true, Json.null])]

theorem isPre_iff (xs : List Char) : ∀ ys, isPre xs ys = true ↔ ∃ t, ys = xs ++ t := by
  induction xs with
  | nil => intro ys; simp [isPre]
  | cons a as ih =>
    intro ys
    cases ys with
    | nil => simp [isPre]
    | cons b bs =>
      simp only [isPre, Bool.and_eq_true, beq_iff_eq, ih bs]
      constructor
      · rintro ⟨rfl, t, rfl⟩; exact ⟨t, rfl⟩
      · rintro ⟨t, h⟩
        cases h
        exact ⟨rfl, t, rfl⟩

theorem isPre_self_app (xs t : List Char) : isPre xs (xs ++ t) = true :=
  (isPre_iff xs _).2 ⟨t, rfl⟩

theorem isPre_length {xs ys : List Char} (h : isPre xs ys = true) : xs.length ≤ ys.length := by
  obtain ⟨t, rfl⟩ := (isPre_iff xs ys).1 h
  simp

theorem isPre_trans {a b c : List Char} (hab : isPre a b = true) (hbc : isPre b c = true) :
    isPre a c = true := by
  obtain ⟨t, rfl⟩ := (isPre_iff a b).1 hab
  obtain ⟨u, rfl⟩ := (isPre_iff (a ++ t) c).1 hbc
  exact (isPre_iff a _).2 ⟨t ++ u, by simp⟩

theorem hasSub_iff_drop (sep : List Char) :
    ∀ cs, hasSub sep cs = true ↔ ∃ i, isPre sep (cs.drop i) = true := by
  intro cs
  induction cs with
  | nil =>
    simp only [hasSub, List.isEmpty_iff, List.drop_nil]
    constructor
    · rintro rfl; exact ⟨0, rfl⟩
    · rintro ⟨i, h⟩
      obtain ⟨t, ht⟩ := (isPre_iff sep []).1 h
      exact (List.append_eq_nil.1 ht.symm).1
  | cons c rest ih =>
    simp only [hasSub, Bool.or_eq_true, ih]
    constructor
    · rintro (h | ⟨i, h⟩)
      · exact ⟨0, h⟩
      · exact ⟨i + 1, by simpa using h⟩
    · rintro ⟨i, h⟩
      cases i with
      | zero => exact Or.inl (by simpa using h)
      | succ i => exact Or.inr ⟨i, by simpa using h⟩

theorem splitGo_ne_nil (sep : List Char) : ∀ f cs, splitGo sep f cs ≠ [] := by
  intro f
  induction f with
  | zero => intro cs; cases cs <;> simp [splitGo]
  | succ f ih =>
    intro cs
    cases cs with
    | nil => simp [splitGo]
    | cons c rest =>
      simp only [splitGo]
      split
      · simp
      · cases h : splitGo sep f rest <;> simp

theorem splitGo_fuel (sep : List Char) :
    ∀ f g cs, cs.length ≤ f → cs.length ≤ g → splitGo sep f cs = splitGo sep g cs := by
  intro f
  induction f with
  | zero =>
    intro g cs hf _
    have : cs = [] := List.eq_nil_of_length_eq_zero (Nat.le_zero.1 hf)
    subst this
    cases g <;> simp [splitGo]
  | succ f ih =>
    intro g cs hf hg
    cases cs with
    | nil => cases g <;> simp [splitGo]
    | cons c rest =>
      cases g with
      | zero => simp at hg
      | succ g =>
        simp only [splitGo]
        split
        · have h1 : (rest.drop (sep.length - 1)).length ≤ f := by
            simp only [List.length_drop]
            simp only [List.length_cons] at hf
            omega
          have h2 : (rest.drop (sep.length - 1)).length ≤ g := by
            simp only [List.length_drop]
            simp only [List.length_cons] at hg
            omega
          rw [ih g _ h1 h2]
        · have h1 : rest.length ≤ f := by simp at hf; omega
          have h2 : rest.length ≤ g := by simp at hg; omega
          rw [ih g rest h1 h2]

theorem pySplit_cons (sep : List Char) (c : Char) (rest : List Char) :
    pySplit sep (c :: rest) =
      if isPre sep (c :: rest) then [] :: pySplit sep (rest.drop (sep.length - 1))
      else consHead [c] (pySplit sep rest) := by
  show splitGo sep (rest.length + 1) (c :: rest) = _
  simp only [splitGo]
  split
  · rw [splitGo_fuel sep rest.length (rest.drop (sep.length - 1)).length _ (by simp) (by simp)]
    rfl
  · rw [show splitGo sep rest.length rest = pySplit sep rest from rfl]
    cases h : pySplit sep rest with
    | nil => exact absurd h (splitGo_ne_nil sep _ _)
    | cons hd tl => simp [consHead]

theorem pySplit_ne_nil (sep cs : List Char) : pySplit sep cs ≠ [] :=
  splitGo_ne_nil sep _ cs

theorem pySplit_not_sub (sep : List Char) :
    ∀ cs, hasSub sep cs = false → pySplit sep cs = [cs] := by
  intro cs
  induction cs with
  | nil => intro _; rfl
  | cons c rest ih =>
    intro h
    simp only [hasSub, Bool.or_eq_false_iff] at h
    rw [pySplit_cons, if_neg (by simp [h.1]), ih h.2]
    simp [consHead]

theorem pySplit_hit (sep u : List Char) (hs : sep ≠ []) :
    pySplit sep (sep ++ u) = [] :: pySplit sep u := by
  cases sep with
  | nil => exact absurd rfl hs
  | cons s0 s' =>
    rw [show (s0 :: s') ++ u = s0 :: (s' ++ u) from rfl, pySplit_cons,
      if_pos (show isPre (s0 :: s') (s0 :: (s' ++ u)) = true from isPre_self_app (s0 :: s') u)]
    congr 1
    rw [show (s0 :: s').length - 1 = s'.length from by simp]
    rw [List.drop_left]

theorem pySplit_skip (sep : List Char) :
    ∀ body tail, (∀ i, i < body.length → isPre sep (body.drop i ++ tail) = false) →
      pySplit sep (body ++ tail) = consHead body (pySplit sep tail) := by
  intro body
  induction body with
  | nil =>
    intro tail _
    cases hx : pySplit sep tail with
    | nil => exact absurd hx (pySplit_ne_nil sep tail)
    | cons hd tl => simp [consHead, hx]
  | cons c body' ih =>
    intro tail h
    have h0 : isPre sep (c :: (body' ++ tail)) = false := by
      have := h 0 (by simp)
      simpa using this
    have hrec : ∀ i, i < body'.length → isPre sep (body'.drop i ++ tail) = false := by
      intro i hi
      have := h (i + 1) (by simp only [List.length_cons]; omega)
      simpa using this
    rw [show (c :: body') ++ tail = c :: (body' ++ tail) from rfl, pySplit_cons,
      if_neg (by rw [h0]; simp), ih tail hrec]
    cases hx : pySplit sep tail with
    | nil => exact absurd hx (pySplit_ne_nil sep tail)
    | cons hd tl => simp [consHead, hx]

theorem isPre_snoc {sep xs : List Char} {a : Char} (h : isPre sep (xs ++ [a]) = true) :
    isPre sep xs = true ∨ a ∈ sep := by
  obtain ⟨t, ht⟩ := (isPre_iff _ _).1 h
  by_cases hl : sep.length ≤ xs.length
  · left
    have h1 : (xs ++ [a]).take sep.length = sep := by
      rw [ht, List.take_left]
    have h2 : (xs ++ [a]).take sep.length = xs.take sep.length := by
      rw [List.take_append_eq_append_take, Nat.sub_eq_zero_of_le hl]
      simp
    have ht3 : xs.take sep.length = sep := h2.symm.trans h1
    refine (isPre_iff _ _).2 ⟨xs.drop sep.length, ?_⟩
    have hsplit : xs = xs.take sep.length ++ xs.drop sep.length :=
      (List.take_append_drop _ _).symm
    rw [ht3] at hsplit
    exact hsplit
  · have hlen : xs.length + 1 = sep.length + t.length := by
      have := congrArg List.length ht
      simpa using this
    have ht0 : t = [] := by
      have : sep.length ≤ xs.length + 1 := by
        have := isPre_length h
        simpa using this
      have : t.length = 0 := by omega
      exact List.eq_nil_of_length_eq_zero this
    subst ht0
    right
    rw [List.append_nil] at ht
    rw [← ht]
    simp

theorem hasSub_cons_nl (z : List Char) : hasSub triTicks ('\n' :: z) = hasSub triTicks z := by
  show (isPre triTicks ('\n' :: z) || hasSub triTicks z) = hasSub triTicks z
  rw [show isPre triTicks ('\n' :: z) = false from rfl]
  simp

theorem hasSub_snoc_nl {d : List Char} (h : hasSub triTicks d = false) :
    hasSub triTicks (d ++ ['\n']) = false := by
  induction d with
  | nil => rfl
  | cons c d' ih =>
    simp only [hasSub, Bool.or_eq_false_iff] at h
    show (isPre triTicks (c :: (d' ++ ['\n'])) || hasSub triTicks (d' ++ ['\n'])) = false
    rw [ih h.2]
    cases hp : isPre triTicks (c :: (d' ++ ['\n'])) with
    | false => simp
    | true =>
      exfalso
      have hp' : isPre triTicks ((c :: d') ++ ['\n']) = true := hp
      rcases isPre_snoc hp' with h1 | h2
      · rw [h.1] at h1; exact Bool.false_ne_true h1
      · exact absurd h2 (by decide)

theorem hasSub_body {d : List Char} (h : hasSub triTicks d = false) :
    hasSub triTicks ('\n' :: d ++ ['\n']) = false := by
  rw [show '\n' :: d ++ ['\n'] = '\n' :: (d ++ ['\n']) from rfl, hasSub_cons_nl]
  exact hasSub_snoc_nl h

theorem hasSub_of_drop {sep cs : List Char} {i : Nat}
    (h : isPre sep (cs.drop i) = true) : hasSub sep cs = true :=
  (hasSub_iff_drop sep cs).2 ⟨i, h⟩

theorem tri_not_in_mid {d : List Char} (h : hasSub triTicks d = false) :
    ∀ i, i < ('\n' :: d ++ ['\n']).length →
      isPre triTicks (('\n' :: d ++ ['\n']).drop i ++ triTicks) = false := by
  intro i hi
  have hb : hasSub triTicks ('\n' :: d ++ ['\n']) = false := hasSub_body h
  cases hc : isPre triTicks (('\n' :: d ++ ['\n']).drop i ++ triTicks) with
  | false => rfl
  | true =>
    exfalso
    obtain ⟨t, ht⟩ := (isPre_iff _ _).1 hc
    by_cases hl : 3 ≤ (('\n' :: d ++ ['\n']).drop i).length
    · have h3 : (('\n' :: d ++ ['\n']).drop i).take 3 = triTicks := by
        have heq : ((('\n' :: d ++ ['\n']).drop i) ++ triTicks).take 3 = (triTicks ++ t).take 3 := by
          rw [← ht]
        rw [List.take_append_eq_append_take, List.take_append_eq_append_take,
          Nat.sub_eq_zero_of_le hl,
          show (3 : Nat) - triTicks.length = 0 from by decide] at heq
        simpa [show triTicks.take 3 = triTicks from by decide] using heq
      have hpre : isPre triTicks (('\n' :: d ++ ['\n']).drop i) = true := by
        refine (isPre_iff _ _).2 ⟨(('\n' :: d ++ ['\n']).drop i).drop 3, ?_⟩
        conv_lhs => rw [← List.take_append_drop 3 (('\n' :: d ++ ['\n']).drop i)]
        rw [h3]
      rw [hasSub_of_drop hpre] at hb
      simp at hb
    · have hslen : (('\n' :: d ++ ['\n']).drop i).length < 3 := by omega
      have h1 : ((('\n' :: d ++ ['\n']).drop i) ++ triTicks).take (('\n' :: d ++ ['\n']).drop i).length
          = ('\n' :: d ++ ['\n']).drop i := List.take_left _ _
      have h2 : (triTicks ++ t).take (('\n' :: d ++ ['\n']).drop i).length
          = triTicks.take (('\n' :: d ++ ['\n']).drop i).length := by
        rw [List.take_append_eq_append_take,
          Nat.sub_eq_zero_of_le (show (('\n' :: d ++ ['\n']).drop i).length ≤ triTicks.length from by
            rw [show triTicks.length = 3 from by decide]; omega)]
        simp
      have hs_pre : ('\n' :: d ++ ['\n']).drop i
          = triTicks.take (('\n' :: d ++ ['\n']).drop i).length :=
        h1.symm.trans (by rw [ht]; exact h2)
      have hnl : '\n' ∈ ('\n' :: d ++ ['\n']).drop i := by
        have hi2 : i < d.length + 2 := by simpa using hi
        have hi' : i ≤ ('\n' :: d).length := by
          simp only [List.length_cons]
          omega
        have hdec : ('\n' :: d ++ ['\n']).drop i = ('\n' :: d).drop i ++ ['\n'] := by
          rw [List.drop_append_eq_append_drop, Nat.sub_eq_zero_of_le hi']
          simp
        rw [hdec]
        simp
      rw [hs_pre] at hnl
      exact absurd (List.mem_of_mem_take hnl) (by decide)

theorem sepJ_not_in {d : List Char} (h : hasSub triTicks d = false) :
    hasSub jsonTicks (('\n' :: d ++ ['\n']) ++ triTicks) = false := by
  cases hc : hasSub jsonTicks (('\n' :: d ++ ['\n']) ++ triTicks) with
  | false => rfl
  | true =>
    exfalso
    obtain ⟨i, hp⟩ := (hasSub_iff_drop _ _).1 hc
    by_cases hib : i < ('\n' :: d ++ ['\n']).length
    · have hdec : (('\n' :: d ++ ['\n']) ++ triTicks).drop i
          = ('\n' :: d ++ ['\n']).drop i ++ triTicks := by
        rw [List.drop_append_eq_append_drop, Nat.sub_eq_zero_of_le (Nat.le_of_lt hib)]
        simp
      rw [hdec] at hp
      have htri : isPre triTicks (('\n' :: d ++ ['\n']).drop i ++ triTicks) = true :=
        isPre_trans (show isPre triTicks jsonTicks = true from rfl) hp
      rw [tri_not_in_mid h i hib] at htri
      exact Bool.false_ne_true htri
    · have hdec : (('\n' :: d ++ ['\n']) ++ triTicks).drop i
          = triTicks.drop (i - ('\n' :: d ++ ['\n']).length) := by
        rw [List.drop_append_eq_append_drop,
          List.drop_eq_nil_of_le (by omega)]
        simp
      rw [hdec] at hp
      have hlen := isPre_length hp
      rw [show jsonTicks.length = 7 from by decide] at hlen
      have : (triTicks.drop (i - ('\n' :: d ++ ['\n']).length)).length ≤ 3 := by
        rw [List.length_drop, show triTicks.length = 3 from by decide]
        omega
      omega

theorem pyStrip_id {c d : Char} {mid : List Char} (hc : wsB c = false) (hd : wsB d = false) :
    pyStrip (c :: (mid ++ [d])) = c :: (mid ++ [d]) := by
  show (((c :: (mid ++ [d])).dropWhile wsB).reverse.dropWhile wsB).reverse = _
  rw [List.dropWhile_cons_of_neg (by simp [hc])]
  have hrev : (c :: (mid ++ [d])).reverse = d :: (mid.reverse ++ [c]) := by simp
  rw [hrev, List.dropWhile_cons_of_neg (by simp [hd])]
  rw [← hrev, List.reverse_reverse]

theorem digitsGo_acc (f n : Nat) (acc : List Char) :
    digitsGo f n acc = digitsGo f n [] ++ acc := by
  induction f generalizing n acc with
  | zero => simp [digitsGo]
  | succ f ih =>
    simp only [digitsGo]
    split
    · simp
    · rw [ih, ih (n / 10) [Char.ofNat (48 + n % 10)]]; simp

theorem digitsGo_fuel : ∀ f g n acc, n ≤ f → n ≤ g → digitsGo f n acc = digitsGo g n acc := by
  intro f
  induction f with
  | zero =>
    intro g n acc hf _
    have hn : n = 0 := Nat.le_zero.1 hf
    subst hn
    cases g <;> simp [digitsGo]
  | succ f ih =>
    intro g n acc hf hg
    cases g with
    | zero =>
      have hn : n = 0 := Nat.le_zero.1 hg
      subst hn
      simp [digitsGo]
    | succ g =>
      simp only [digitsGo]
      split
      · rfl
      · have hlt : n / 10 < n := Nat.div_lt_self (by omega) (by omega)
        exact ih g (n / 10) _ (by omega) (by omega)

theorem natToChars_lt10 {n : Nat} (h : n < 10) : natToChars n = [Char.ofNat (48 + n)] := by
  cases n with
  | zero => rfl
  | succ m =>
    show digitsGo (m + 1) (m + 1) [] = _
    simp [digitsGo, h]

theorem natToChars_ge10 {n : Nat} (h : 10 ≤ n) :
    natToChars n = natToChars (n / 10) ++ [Char.ofNat (48 + n % 10)] := by
  obtain ⟨f, hf⟩ : ∃ f, n = f + 1 := ⟨n - 1, by omega⟩
  show digitsGo n n [] = _
  rw [hf]
  simp only [digitsGo, if_neg (by omega : ¬ f + 1 < 10)]
  rw [digitsGo_acc]
  have hlt : (f + 1) / 10 < f + 1 := Nat.div_lt_self (by omega) (by omega)
  rw [digitsGo_fuel f ((f + 1) / 10) ((f + 1) / 10) [] (by omega) (by omega)]
  rfl

theorem natToChars_digits : ∀ n, ∀ c ∈ natToChars n, c.isDigit = true := by
  intro n
  induction n using Nat.strong_induction_on with
  | _ n ih =>
    by_cases h : n < 10
    · rw [natToChars_lt10 h]
      intro c hc
      simp only [List.mem_singleton] at hc
      subst hc
      interval_cases n <;> decide
    · rw [natToChars_ge10 (by omega)]
      intro c hc
      rcases List.mem_append.1 hc with h1 | h2
      · exact ih (n / 10) (Nat.div_lt_self (by omega) (by omega)) c h1
      · simp only [List.mem_singleton] at h2
        subst h2
        have hm : n % 10 < 10 := Nat.mod_lt _ (by omega)
        set r := n % 10 with hr
        interval_cases r <;> decide

theorem natToChars_val :
    ∀ n, List.foldl (fun a c => a * 10 + (c.toNat - 48)) 0 (natToChars n) = n := by
  intro n
  induction n using Nat.strong_induction_on with
  | _ n ih =>
    by_cases h : n < 10
    · rw [natToChars_lt10 h]
      simp only [List.foldl_cons, List.foldl_nil]
      interval_cases n <;> decide
    · rw [natToChars_ge10 (by omega), List.foldl_append]
      rw [ih (n / 10) (Nat.div_lt_self (by omega) (by omega))]
      simp only [List.foldl_cons, List.foldl_nil]
      have hd : (Char.ofNat (48 + n % 10)).toNat - 48 = n % 10 := by
        have hm : n % 10 < 10 := Nat.mod_lt _ (by omega)
        set r := n % 10 with hr
        interval_cases r <;> decide
      rw [hd]
      omega

theorem natToChars_ne_nil (n : Nat) : natToChars n ≠ [] := by
  by_cases h : n < 10
  · rw [natToChars_lt10 h]; simp
  · rw [natToChars_ge10 (by omega)]; simp

theorem skipWs_cons_nw {c : Char} {cs : List Char} (h : wsB c = false) :
    skipWs (c :: cs) = c :: cs := by
  simp [skipWs, h]

theorem skipWs_cons_w {c : Char} {cs : List Char} (h : wsB c = true) :
    skipWs (c :: cs) = skipWs cs := by
  simp [skipWs, h]

theorem parseDigits_spec :
    ∀ ds, (∀ c ∈ ds, c.isDigit = true) → ∀ rest, digitHead rest = false → ∀ acc,
      parseDigits (ds ++ rest) acc
        = (ds.foldl (fun a c => a * 10 + (c.toNat - 48)) acc, rest) := by
  intro ds
  induction ds with
  | nil =>
    intro _ rest hrest acc
    cases rest with
    | nil => rfl
    | cons c r =>
      simp only [digitHead] at hrest
      simp [parseDigits, hrest]
  | cons d ds' ih =>
    intro hall rest hrest acc
    have hd : d.isDigit = true := hall d (by simp)
    show parseDigits (d :: (ds' ++ rest)) acc = _
    simp only [parseDigits, hd, if_pos]
    rw [ih (fun c hc => hall c (by simp [hc])) rest hrest]
    rfl

theorem parseDigits_nat (n : Nat) (rest : List Char) (hrest : digitHead rest = false) :
    parseDigits (natToChars n ++ rest) 0 = (n, rest) := by
  rw [parseDigits_spec (natToChars n) (natToChars_digits n) rest hrest 0, natToChars_val]

theorem parseStrBody_esc (s : List Char) :
    ∀ rest, parseStrBody (escString s ++ '"' :: rest) = some (s, rest) := by
  induction s with
  | nil =>
    intro rest
    rw [show escString [] ++ '"' :: rest = '"' :: rest from rfl, parseStrBody.eq_def]
    simp
  | cons c s' ih =>
    intro rest
    rw [show escString (c :: s') = escChar c ++ escString s' from rfl, List.append_assoc]
    simp only [escChar]
    split_ifs with h1 h2 h3 h4 h5
    · subst h1; rw [parseStrBody.eq_def]; simp [unescChar, ih]
    · subst h2; rw [parseStrBody.eq_def]; simp [unescChar, ih]
    · subst h3; rw [parseStrBody.eq_def]; simp [unescChar, ih]
    · subst h4; rw [parseStrBody.eq_def]; simp [unescChar, ih]
    · subst h5; rw [parseStrBody.eq_def]; simp [unescChar, ih]
    · rw [show [c] ++ (escString s' ++ '"' :: rest) = c :: (escString s' ++ '"' :: rest) from rfl,
        parseStrBody.eq_def]
      simp [unescChar, ih, h1, h2]

theorem digit_nws {c : Char} (h : c.isDigit = true) : wsB c = false := by
  unfold wsB
  by_cases h1 : c = ' '
  · subst h1; exact absurd h (by decide)
  by_cases h2 : c = '\n'
  · subst h2; exact absurd h (by decide)
  by_cases h3 : c = '\t'
  · subst h3; exact absurd h (by decide)
  by_cases h4 : c = '\r'
  · subst h4; exact absurd h (by decide)
  simp only [Bool.or_eq_false_iff, beq_eq_false_iff_ne, ne_eq]
  exact ⟨⟨⟨h1, h2⟩, h3⟩, h4⟩

theorem digit_ne {c x : Char} (h : c.isDigit = true) (hx : x.isDigit = false) : c ≠ x := by
  intro he
  subst he
  rw [h] at hx
  cases hx

theorem dumps_head (o : Json) :
    ∃ c r, dumps o = c :: r ∧ wsB c = false ∧ c ≠ ']' := by
  cases o with
  | null => exact ⟨'n', _, rfl, by decide, by decide⟩
  | bool b => cases b with
    | true => exact ⟨'t', _, rfl, by decide, by decide⟩
    | false => exact ⟨'f', _, rfl, by decide, by decide⟩
  | num n =>
    show ∃ c r, intToChars n = c :: r ∧ _
    unfold intToChars
    by_cases hn : n < 0
    · rw [if_pos hn]
      exact ⟨'-', _, rfl, by decide, by decide⟩
    · rw [if_neg hn]
      cases hc : natToChars n.toNat with
      | nil => exact absurd hc (natToChars_ne_nil _)
      | cons c r =>
        have hcd : c.isDigit = true := natToChars_digits n.toNat c (by rw [hc]; simp)
        exact ⟨c, r, rfl, digit_nws hcd, digit_ne hcd (by decide)⟩
  | str s => exact ⟨'"', _, rfl, by decide, by decide⟩
  | arr xs => exact ⟨'[', _, rfl, by decide, by decide⟩
  | obj kvs => exact ⟨lbrace, _, rfl, by decide, by decide⟩

theorem skipWs_dumps (o : Json) (X : List Char) :
    skipWs (dumps o ++ X) = dumps o ++ X := by
  obtain ⟨c, r, hc, hws, _⟩ := dumps_head o
  rw [hc, List.cons_append, skipWs_cons_nw hws]

theorem parseVal_ws {c : Char} (h : wsB c = true) :
    ∀ f X, parseVal f (c :: X) = parseVal f X := by
  intro f X
  cases f with
  | zero => rfl
  | succ g =>
    rw [parseVal.eq_def]
    conv_rhs => rw [parseVal.eq_def]
    simp only [skipWs_cons_w h]

theorem parseArrItems_ws {c : Char} (h : wsB c = true) :
    ∀ f X, parseArrItems f (c :: X) = parseArrItems f X := by
  intro f X
  cases f with
  | zero => rfl
  | succ g =>
    rw [parseArrItems.eq_def]
    conv_rhs => rw [parseArrItems.eq_def]
    simp only [parseVal_ws h]

theorem parseObjItems_ws {c : Char} (h : wsB c = true) :
    ∀ f X, parseObjItems f (c :: X) = parseObjItems f X := by
  intro f X
  cases f with
  | zero => rfl
  | succ g =>
    rw [parseObjItems.eq_def]
    conv_rhs => rw [parseObjItems.eq_def]
    simp only [skipWs_cons_w h]

theorem objInsert_fresh {k : List Char} {v : Json} :
    ∀ acc, (∀ q ∈ acc, q.1 ≠ k) → objInsert acc k v = acc ++ [(k, v)] := by
  intro acc
  induction acc with
  | nil => intro _; rfl
  | cons q rest ih =>
    intro h
    obtain ⟨k', v'⟩ := q
    have hk : k' ≠ k := h (k', v') (by simp)
    show objInsert ((k', v') :: rest) k v = _
    simp only [objInsert, if_neg hk]
    rw [ih (fun q hq => h q (by simp [hq]))]
    simp

theorem nodupKeys_cons {k : List Char} {v : Json} {rest : List (List Char × Json)}
    (h : nodupKeys ((k, v) :: rest) = true) :
    (∀ p ∈ rest, p.1 ≠ k) ∧ nodupKeys rest = true := by
  simp only [nodupKeys, Bool.and_eq_true, Bool.not_eq_true', List.any_eq_false,
    decide_eq_false_iff_not] at h
  exact ⟨fun p hp => by simpa using h.1 p hp, h.2⟩

theorem buildDict_go {f : List (List Char × Json) → (List Char × Json) → List (List Char × Json)}
    (hf : f = fun acc kv => objInsert acc kv.1 kv.2) :
    ∀ ps acc, nodupKeys ps = true → (∀ p ∈ ps, ∀ q ∈ acc, q.1 ≠ p.1) →
      ps.foldl f acc = acc ++ ps := by
  subst hf
  intro ps
  induction ps with
  | nil => intro acc _ _; simp
  | cons p ps' ih =>
    intro acc hnd hfresh
    obtain ⟨k, v⟩ := p
    obtain ⟨hnotin, hnd'⟩ := nodupKeys_cons hnd
    simp only [List.foldl_cons]
    rw [show objInsert acc (k, v).1 (k, v).2 = objInsert acc k v from rfl]
    rw [objInsert_fresh acc (fun q hq => hfresh (k, v) (by simp) q hq)]
    rw [ih (acc ++ [(k, v)]) hnd' ?_]
    · simp
    · intro p hp q hq
      rcases List.mem_append.1 hq with h1 | h2
      · exact hfresh p (by simp [hp]) q h1
      · simp only [List.mem_singleton] at h2
        subst h2
        exact fun he => hnotin p hp (by rw [← he])

theorem buildDict_nodup {ps : List (List Char × Json)} (h : nodupKeys ps = true) :
    buildDict ps = ps := by
  unfold buildDict
  rw [buildDict_go rfl ps [] h (by simp)]
  simp

theorem wfList_mem {xs : List Json} (h : wfList xs = true) : ∀ x ∈ xs, wfB x = true := by
  induction xs with
  | nil => simp
  | cons y t ih =>
    simp only [wfList, Bool.and_eq_true] at h
    intro x hx
    rcases List.mem_cons.1 hx with h1 | h2
    · subst h1; exact h.1
    · exact ih h.2 x h2

theorem wfPairs_mem {ps : List (List Char × Json)} (h : wfPairs ps = true) :
    ∀ p ∈ ps, wfB p.2 = true := by
  induction ps with
  | nil => simp
  | cons q t ih =>
    obtain ⟨k, v⟩ := q
    simp only [wfPairs, Bool.and_eq_true] at h
    intro p hp
    rcases List.mem_cons.1 hp with h1 | h2
    · subst h1; exact h.1
    · exact ih h.2 p h2

theorem fuelV_pos (o : Json) : 1 ≤ fuelV o := by
  cases o <;> simp [fuelV]

theorem parseVal_null (f : Nat) (hf : 1 ≤ f) (rest : List Char) :
    parseVal f (dumps Json.null ++ rest) = some (Json.null, rest) := by
  obtain ⟨g, rfl⟩ : ∃ g, f = g + 1 := ⟨f - 1, by omega⟩
  show parseVal (g + 1) ('n' :: 'u' :: 'l' :: 'l' :: rest) = _
  rw [parseVal.eq_def]
  simp [skipWs, wsB, litP, isPre, lbrace, rbrace]

theorem parseVal_true (f : Nat) (hf : 1 ≤ f) (rest : List Char) :
    parseVal f (dumps (Json.bool true) ++ rest) = some (Json.bool true, rest) := by
  obtain ⟨g, rfl⟩ : ∃ g, f = g + 1 := ⟨f - 1, by omega⟩
  show parseVal (g + 1) ('t' :: 'r' :: 'u' :: 'e' :: rest) = _
  rw [parseVal.eq_def]
  simp [skipWs, wsB, litP, isPre, lbrace, rbrace]

theorem parseVal_false (f : Nat) (hf : 1 ≤ f) (rest : List Char) :
    parseVal f (dumps (Json.bool false) ++ rest) = some (Json.bool false, rest) := by
  obtain ⟨g, rfl⟩ : ∃ g, f = g + 1 := ⟨f - 1, by omega⟩
  show parseVal (g + 1) ('f' :: 'a' :: 'l' :: 's' :: 'e' :: rest) = _
  rw [parseVal.eq_def]
  simp [skipWs, wsB, litP, isPre, lbrace, rbrace]

theorem parseVal_str (s : List Char) (f : Nat) (hf : 1 ≤ f) (rest : List Char) :
    parseVal f (dumps (Json.str s) ++ rest) = some (Json.str s, rest) := by
  obtain ⟨g, rfl⟩ : ∃ g, f = g + 1 := ⟨f - 1, by omega⟩
  rw [show dumps (Json.str s) ++ rest = '"' :: (escString s ++ '"' :: rest) from by
    show ('"' :: escString s ++ ['"']) ++ rest = _
    simp]
  rw [parseVal.eq_def]
  simp [skipWs, wsB, parseStrBody_esc]

theorem parseVal_num (n : Int) (f : Nat) (hf : 1 ≤ f) (rest : List Char)
    (hrest : digitHead rest = false) :
    parseVal f (dumps (Json.num n) ++ rest) = some (Json.num n, rest) := by
  obtain ⟨g, rfl⟩ : ∃ g, f = g + 1 := ⟨f - 1, by omega⟩
  by_cases hn : n < 0
  · rw [show dumps (Json.num n) = '-' :: natToChars (-n).toNat from by
      show intToChars n = _
      unfold intToChars
      rw [if_pos hn]]
    cases hc : natToChars (-n).toNat with
    | nil => exact absurd hc (natToChars_ne_nil _)
    | cons c r =>
      have hcd : c.isDigit = true := natToChars_digits _ c (by rw [hc]; simp)
      have hpd : parseDigits (c :: (r ++ rest)) 0 = ((-n).toNat, rest) := by
        rw [show c :: (r ++ rest) = natToChars (-n).toNat ++ rest from by rw [hc]; simp]
        exact parseDigits_nat _ _ hrest
      rw [List.cons_append, List.cons_append, parseVal.eq_def]
      simp only [skipWs_cons_nw (show wsB '-' = false from by decide)]
      simp [lbrace, rbrace, hcd, hpd, Int.toNat_of_nonneg (by omega : (0 : Int) ≤ -n)]
  · rw [show dumps (Json.num n) = natToChars n.toNat from by
      show intToChars n = _
      unfold intToChars
      rw [if_neg hn]]
    cases hc : natToChars n.toNat with
    | nil => exact absurd hc (natToChars_ne_nil _)
    | cons c r =>
      have hcd : c.isDigit = true := natToChars_digits _ c (by rw [hc]; simp)
      have hpd : parseDigits (c :: (r ++ rest)) 0 = (n.toNat, rest) := by
        rw [show c :: (r ++ rest) = natToChars n.toNat ++ rest from by rw [hc]; simp]
        exact parseDigits_nat _ _ hrest
      rw [List.cons_append, parseVal.eq_def]
      simp only [skipWs_cons_nw (digit_nws hcd)]
      simp [lbrace, rbrace, hcd, hpd,
        digit_ne hcd (show ('"').isDigit = false from by decide),
        digit_ne hcd (show (Char.ofNat 123).isDigit = false from by decide),
        digit_ne hcd (show ('[').isDigit = false from by decide),
        digit_ne hcd (show ('t').isDigit = false from by decide),
        digit_ne hcd (show ('f').isDigit = false from by decide),
        digit_ne hcd (show ('n').isDigit = false from by decide),
        digit_ne hcd (show ('-').isDigit = false from by decide),
        Int.toNat_of_nonneg (by omega : (0 : Int) ≤ n)]

theorem dumpsList_two (x y : Json) (t : List Json) :
    dumpsList (x :: y :: t) = dumps x ++ (',' :: ' ' :: dumpsList (y :: t)) := by
  show dumps x ++ ", ".data ++ dumpsList (y :: t) = _
  simp

theorem dumpsPairs_one (k : List Char) (v : Json) :
    dumpsPairs [(k, v)] = '"' :: (escString k ++ ('"' :: ':' :: ' ' :: dumps v)) := by
  show '"' :: escString k ++ "\": ".data ++ dumps v = _
  simp

theorem dumpsPairs_two (k : List Char) (v : Json) (p : List Char × Json)
    (t : List (List Char × Json)) :
    dumpsPairs ((k, v) :: p :: t)
      = '"' :: (escString k ++ ('"' :: ':' :: ' ' :: (dumps v ++ (',' :: ' ' :: dumpsPairs (p :: t))))) := by
  show '"' :: escString k ++ "\": ".data ++ dumps v ++ ", ".data ++ dumpsPairs (p :: t) = _
  simp

theorem sizeOf_lt_arr {x : Json} {xs : List Json} (h : x ∈ xs) :
    sizeOf x < sizeOf (Json.arr xs) := by
  have := List.sizeOf_lt_of_mem h
  simp only [Json.arr.sizeOf_spec]
  omega

theorem sizeOf_lt_obj {p : List Char × Json} {kvs : List (List Char × Json)} (h : p ∈ kvs) :
    sizeOf p.2 < sizeOf (Json.obj kvs) := by
  have h1 := List.sizeOf_lt_of_mem h
  obtain ⟨k, v⟩ := p
  simp only [Json.obj.sizeOf_spec]
  simp only [Prod.mk.sizeOf_spec] at h1
  omega

theorem parseVal_succ (f : Nat) (cs0 : List Char) :
    parseVal (f + 1) cs0 =
      match skipWs cs0 with
      | [] => none
      | c :: rest =>
        if c = '"' then
          match parseStrBody rest with
          | none => none
          | some (s, r) => some (Json.str s, r)
        else if c = lbrace then
          match skipWs rest with
          | [] => none
          | c2 :: r2 =>
            if c2 = rbrace then some (Json.obj [], r2)
            else
              match parseObjItems f (c2 :: r2) with
              | none => none
              | some (ps, r) => some (Json.obj (buildDict ps), r)
        else if c = '[' then
          match skipWs rest with
          | [] => none
          | c2 :: r2 =>
            if c2 = ']' then some (Json.arr [], r2)
            else
              match parseArrItems f (c2 :: r2) with
              | none => none
              | some (vs, r) => some (Json.arr vs, r)
        else if c = 't' then
          match litP "rue".data rest with
          | none => none
          | some r => some (Json.bool true, r)
        else if c = 'f' then
          match litP "alse".data rest with
          | none => none
          | some r => some (Json.bool false, r)
        else if c = 'n' then
          match litP "ull".data rest with
          | none => none
          | some r => some (Json.null, r)
        else if c = '-' then
          match rest with
          | [] => none
          | d :: _ =>
            if d.isDigit then
              let (m, r) := parseDigits rest 0
              some (Json.num (-(m : Int)), r)
            else none
        else if c.isDigit then
          let (m, r) := parseDigits (c :: rest) 0
          some (Json.num (m : Int), r)
        else none := by
  rw [parseVal.eq_def]
  try rfl

theorem parseArrItems_succ (f : Nat) (cs : List Char) :
    parseArrItems (f + 1) cs =
      match parseVal f cs with
      | none => none
      | some (v, r) =>
        match skipWs r with
        | ',' :: r2 =>
          match parseArrItems f r2 with
          | none => none
          | some (vs, r3) => some (v :: vs, r3)
        | ']' :: r2 => some ([v], r2)
        | _ => none := by
  rw [parseArrItems.eq_def]
  try rfl

theorem parseObjItems_succ (f : Nat) (cs : List Char) :
    parseObjItems (f + 1) cs =
      match skipWs cs with
      | '"' :: r =>
        match parseStrBody r with
        | none => none
        | some (k, r2) =>
          match skipWs r2 with
          | ':' :: r3 =>
            match parseVal f r3 with
            | none => none
            | some (v, r4) =>
              match skipWs r4 with
              | ',' :: r5 =>
                match parseObjItems f r5 with
                | none => none
                | some (ps, r6) => some ((k, v) :: ps, r6)
              | c5 :: r5 =>
                if c5 = rbrace then some ([(k, v)], r5) else none
              | [] => none
          | _ => none
      | _ => none := by
  rw [parseObjItems.eq_def]
  try rfl

theorem rt_val : ∀ N o, sizeOf o ≤ N → wfB o = true → ∀ f rest, fuelV o ≤ f →
    digitHead rest = false → parseVal f (dumps o ++ rest) = some (o, rest) := by
  intro N
  induction N with
  | zero =>
    intro o hsz
    exact absurd hsz (by cases o <;> simp)
  | succ N ih =>
    intro o hsz hwf f rest hfuel hrest
    cases o with
    | null => exact parseVal_null f (le_trans (fuelV_pos Json.null) hfuel) rest
    | bool b =>
      cases b with
      | true => exact parseVal_true f (le_trans (fuelV_pos _) hfuel) rest
      | false => exact parseVal_false f (le_trans (fuelV_pos _) hfuel) rest
    | num n => exact parseVal_num n f (le_trans (fuelV_pos _) hfuel) rest hrest
    | str s => exact parseVal_str s f (le_trans (fuelV_pos _) hfuel) rest
    | arr xs =>
      obtain ⟨g, rfl⟩ : ∃ g, f = g + 1 := ⟨f - 1, by have := fuelV_pos (Json.arr xs); omega⟩
      have hg : fuelL xs ≤ g := by
        have h1 : fuelV (Json.arr xs) = 1 + fuelL xs := rfl
        omega
      have harr : ∀ ys, ys ≠ [] → (∀ y ∈ ys, sizeOf y ≤ N) → (∀ y ∈ ys, wfB y = true) →
          ∀ h rest', fuelL ys ≤ h → digitHead rest' = false →
            parseArrItems h (dumpsList ys ++ ']' :: rest') = some (ys, rest') := by
        intro ys
        induction ys with
        | nil => intro h; exact absurd rfl h
        | cons y t' iht =>
          intro _ hsz' hwf' h rest' hfl hrest'
          obtain ⟨h', rfl⟩ : ∃ h', h = h' + 1 := ⟨h - 1, by simp [fuelL] at hfl; omega⟩
          have hfy : fuelV y ≤ h' := by simp [fuelL] at hfl; omega
          rw [parseArrItems_succ]
          cases t' with
          | nil =>
            rw [show dumpsList [y] ++ ']' :: rest' = dumps y ++ (']' :: rest') from rfl]
            rw [ih y (hsz' y (by simp)) (hwf' y (by simp)) h' (']' :: rest') hfy rfl]
            simp only [skipWs_cons_nw (show wsB ']' = false from by decide)]
          | cons z t'' =>
            rw [show dumpsList (y :: z :: t'') ++ ']' :: rest'
                = dumps y ++ (',' :: ' ' :: (dumpsList (z :: t'') ++ ']' :: rest')) from by
              rw [dumpsList_two]; simp]
            rw [ih y (hsz' y (by simp)) (hwf' y (by simp)) h'
              (',' :: ' ' :: (dumpsList (z :: t'') ++ ']' :: rest')) hfy rfl]
            simp only [skipWs_cons_nw (show wsB ',' = false from by decide)]
            rw [show parseArrItems h' (' ' :: (dumpsList (z :: t'') ++ ']' :: rest'))
                = parseArrItems h' (dumpsList (z :: t'') ++ ']' :: rest') from
              parseArrItems_ws (by decide) h' _]
            rw [iht (by simp) (fun u hu => hsz' u (by simp [hu]))
              (fun u hu => hwf' u (by simp [hu])) h' rest'
              (by simp [fuelL] at hfl ⊢; omega) hrest']
      have hwfl : wfList xs = true := hwf
      rw [show dumps (Json.arr xs) ++ rest = '[' :: (dumpsList xs ++ (']' :: rest)) from by
        show ('[' :: dumpsList xs ++ [']']) ++ rest = _
        simp]
      rw [parseVal_succ]
      simp only [skipWs_cons_nw (show wsB '[' = false from by decide)]
      cases xs with
      | nil =>
        simp [lbrace, rbrace, skipWs_cons_nw (show wsB ']' = false from by decide), dumpsList]
      | cons x t =>
        obtain ⟨c0, r0, hc0, hws0, hne0⟩ := dumps_head x
        have hL : ∃ L, dumpsList (x :: t) ++ (']' :: rest) = dumps x ++ L := by
          cases t with
          | nil => exact ⟨']' :: rest, by simp [dumpsList]⟩
          | cons z t' =>
            refine ⟨',' :: ' ' :: (dumpsList (z :: t') ++ ']' :: rest), ?_⟩
            rw [dumpsList_two]
            simp
        obtain ⟨L, hLe⟩ := hL
        have hskip : skipWs (dumpsList (x :: t) ++ (']' :: rest))
            = dumpsList (x :: t) ++ (']' :: rest) := by
          rw [hLe]
          exact skipWs_dumps x _
        have hcons : dumpsList (x :: t) ++ (']' :: rest) = c0 :: (r0 ++ L) := by
          rw [hLe, hc0]
          simp
        have harr' := harr (x :: t) (by simp)
          (fun y hy => by
            have := @sizeOf_lt_arr _ (x :: t) hy
            omega)
          (fun y hy => wfList_mem hwfl y hy) g rest hg hrest
        rw [hskip, hcons]
        simp only [if_neg (show ¬ (('[' : Char) = '"') from by decide),
          if_neg (show ¬ (('[' : Char) = lbrace) from by decide), if_pos rfl]
        rw [if_neg hne0, ← hcons, harr']
        simp
    | obj kvs =>
      obtain ⟨g, rfl⟩ : ∃ g, f = g + 1 := ⟨f - 1, by have := fuelV_pos (Json.obj kvs); omega⟩
      have hg : fuelP kvs ≤ g := by
        have h1 : fuelV (Json.obj kvs) = 1 + fuelP kvs := rfl
        omega
      have hwfb : nodupKeys kvs = true ∧ wfPairs kvs = true := by
        have : (nodupKeys kvs && wfPairs kvs) = true := hwf
        simpa using this
      have hobj : ∀ ps, ps ≠ [] → (∀ p ∈ ps, sizeOf p.2 ≤ N) → (∀ p ∈ ps, wfB p.2 = true) →
          ∀ h rest', fuelP ps ≤ h → digitHead rest' = false →
            parseObjItems h (dumpsPairs ps ++ rbrace :: rest') = some (ps, rest') := by
        intro ps
        induction ps with
        | nil => intro h; exact absurd rfl h
        | cons p t' iht =>
          intro _ hsz' hwf' h rest' hfl hrest'
          obtain ⟨k, v⟩ := p
          obtain ⟨h', rfl⟩ : ∃ h', h = h' + 1 := ⟨h - 1, by simp [fuelP] at hfl; omega⟩
          have hfv : fuelV v ≤ h' := by simp [fuelP] at hfl; omega
          rw [parseObjItems_succ]
          cases t' with
          | nil =>
            rw [show dumpsPairs [(k, v)] ++ rbrace :: rest'
                = '"' :: (escString k ++ ('"' :: (':' :: ' ' :: (dumps v ++ (rbrace :: rest'))))) from by
              rw [dumpsPairs_one]; simp]
            simp only [skipWs_cons_nw (show wsB '"' = false from by decide)]
            rw [show escString k ++ ('"' :: (':' :: ' ' :: (dumps v ++ (rbrace :: rest'))))
                = escString k ++ '"' :: (':' :: ' ' :: (dumps v ++ (rbrace :: rest'))) from rfl]
            rw [parseStrBody_esc]
            simp only [skipWs_cons_nw (show wsB ':' = false from by decide)]
            rw [show parseVal h' (' ' :: (dumps v ++ (rbrace :: rest')))
                = parseVal h' (dumps v ++ (rbrace :: rest')) from parseVal_ws (by decide) h' _]
            rw [ih v (hsz' (k, v) (by simp)) (hwf' (k, v) (by simp)) h' (rbrace :: rest') hfv
              (show digitHead (rbrace :: rest') = false from rfl)]
            simp only [skipWs_cons_nw (show wsB rbrace = false from by decide)]
            simp [rbrace, lbrace]
          | cons q t'' =>
            rw [show dumpsPairs ((k, v) :: q :: t'') ++ rbrace :: rest'
                = '"' :: (escString k ++ ('"' :: (':' :: ' ' :: (dumps v
                    ++ (',' :: ' ' :: (dumpsPairs (q :: t'') ++ rbrace :: rest')))))) from by
              rw [dumpsPairs_two]; simp]
            simp only [skipWs_cons_nw (show wsB '"' = false from by decide)]
            rw [show escString k ++ ('"' :: (':' :: ' ' :: (dumps v
                  ++ (',' :: ' ' :: (dumpsPairs (q :: t'') ++ rbrace :: rest')))))
                = escString k ++ '"' :: (':' :: ' ' :: (dumps v
                  ++ (',' :: ' ' :: (dumpsPairs (q :: t'') ++ rbrace :: rest')))) from rfl]
            rw [parseStrBody_esc]
            simp only [skipWs_cons_nw (show wsB ':' = false from by decide)]
            rw [show parseVal h' (' ' :: (dumps v ++ (',' :: ' ' :: (dumpsPairs (q :: t'') ++ rbrace :: rest'))))
                = parseVal h' (dumps v ++ (',' :: ' ' :: (dumpsPairs (q :: t'') ++ rbrace :: rest')))
              from parseVal_ws (by decide) h' _]
            rw [ih v (hsz' (k, v) (by simp)) (hwf' (k, v) (by simp)) h'
              (',' :: ' ' :: (dumpsPairs (q :: t'') ++ rbrace :: rest')) hfv rfl]
            simp only [skipWs_cons_nw (show wsB ',' = false from by decide)]
            rw [show parseObjItems h' (' ' :: (dumpsPairs (q :: t'') ++ rbrace :: rest'))
                = parseObjItems h' (dumpsPairs (q :: t'') ++ rbrace :: rest') from
              parseObjItems_ws (by decide) h' _]
            rw [iht (by simp) (fun u hu => hsz' u (by simp [hu]))
              (fun u hu => hwf' u (by simp [hu])) h' rest'
              (by simp [fuelP] at hfl ⊢; omega) hrest']
      rw [show dumps (Json.obj kvs) ++ rest = lbrace :: (dumpsPairs kvs ++ (rbrace :: rest)) from by
        show (lbrace :: dumpsPairs kvs ++ [rbrace]) ++ rest = _
        simp]
      rw [parseVal_succ]
      simp only [skipWs_cons_nw (show wsB lbrace = false from by decide)]
      cases kvs with
      | nil =>
        simp only [if_neg (show ¬ (lbrace = '"') from by decide), if_pos rfl]
        rw [show dumpsPairs ([] : List (List Char × Json)) ++ (rbrace :: rest) = rbrace :: rest from rfl]
        rw [skipWs_cons_nw (show wsB rbrace = false from by decide)]
        simp
      | cons p t =>
        obtain ⟨k, v⟩ := p
        have hhead : ∃ Z, dumpsPairs ((k, v) :: t) ++ (rbrace :: rest) = '"' :: Z := by
          cases t with
          | nil =>
            exact ⟨escString k ++ ('"' :: ':' :: ' ' :: (dumps v ++ (rbrace :: rest))),
              by rw [dumpsPairs_one]; simp⟩
          | cons q t' =>
            exact ⟨escString k ++ ('"' :: ':' :: ' ' :: (dumps v
              ++ (',' :: ' ' :: (dumpsPairs (q :: t') ++ rbrace :: rest)))),
              by rw [dumpsPairs_two]; simp⟩
        obtain ⟨Z, hZ⟩ := hhead
        have hobj' := hobj ((k, v) :: t) (by simp)
          (fun p hp => by
            have := @sizeOf_lt_obj _ ((k, v) :: t) hp
            omega)
          (fun p hp => wfPairs_mem hwfb.2 p hp) g rest hg hrest
        rw [hZ]
        simp only [skipWs_cons_nw (show wsB '"' = false from by decide)]
        simp only [if_neg (show ¬ (lbrace = '"') from by decide), if_pos rfl,
          if_neg (show ¬ (('"' : Char) = rbrace) from by decide)]
        rw [← hZ, hobj']
        simp [buildDict_nodup hwfb.1]

theorem fuel_bound : ∀ N o, sizeOf o ≤ N → fuelV o ≤ (dumps o).length := by
  intro N
  induction N with
  | zero =>
    intro o hsz
    exact absurd hsz (by cases o <;> simp)
  | succ N ih =>
    intro o hsz
    cases o with
    | null => decide
    | bool b => cases b <;> decide
    | num n =>
      show 1 ≤ (intToChars n).length
      have : intToChars n ≠ [] := by
        unfold intToChars
        split
        · simp
        · exact natToChars_ne_nil _
      have := List.length_pos.2 this
      omega
    | str s =>
      show 1 ≤ ('"' :: escString s ++ ['"']).length
      simp
    | arr xs =>
      have hl : ∀ ys, (∀ y ∈ ys, sizeOf y ≤ N) → fuelL ys ≤ (dumpsList ys).length + 1 := by
        intro ys
        induction ys with
        | nil => intro _; simp [fuelL, dumpsList]
        | cons y t' iht =>
          intro hall
          have hy := ih y (hall y (by simp))
          cases t' with
          | nil =>
            show 1 + fuelV y + fuelL [] ≤ (dumps y).length + 1
            simp [fuelL]
            omega
          | cons z t'' =>
            have ht := iht (fun u hu => hall u (by simp [hu]))
            show 1 + fuelV y + fuelL (z :: t'') ≤ (dumpsList (y :: z :: t'')).length + 1
            rw [dumpsList_two]
            simp only [List.length_append, List.length_cons]
            omega
      have hxs := hl xs (fun y hy => by
        have := @sizeOf_lt_arr _ xs hy
        omega)
      show 1 + fuelL xs ≤ ('[' :: dumpsList xs ++ [']']).length
      simp only [List.length_append, List.length_cons, List.length_nil]
      omega
    | obj kvs =>
      have hl : ∀ ps, (∀ p ∈ ps, sizeOf p.2 ≤ N) → fuelP ps ≤ (dumpsPairs ps).length + 1 := by
        intro ps
        induction ps with
        | nil => intro _; simp [fuelP, dumpsPairs]
        | cons p t' iht =>
          intro hall
          obtain ⟨k, v⟩ := p
          have hv := ih v (hall (k, v) (by simp))
          cases t' with
          | nil =>
            show 1 + fuelV v + fuelP [] ≤ (dumpsPairs [(k, v)]).length + 1
            rw [dumpsPairs_one]
            simp only [fuelP, List.length_cons, List.length_append]
            omega
          | cons q t'' =>
            have ht := iht (fun u hu => hall u (by simp [hu]))
            show 1 + fuelV v + fuelP (q :: t'') ≤ (dumpsPairs ((k, v) :: q :: t'')).length + 1
            rw [dumpsPairs_two]
            simp only [List.length_cons, List.length_append]
            omega
      have hps := hl kvs (fun p hp => by
        have := @sizeOf_lt_obj _ kvs hp
        omega)
      show 1 + fuelP kvs ≤ (lbrace :: dumpsPairs kvs ++ [rbrace]).length
      simp only [List.length_append, List.length_cons, List.length_nil]
      omega

theorem loads_dumps {o : Json} (hwf : wfB o = true) :
    loads ('\n' :: (dumps o ++ ['\n'])) = some o := by
  unfold loads
  rw [parseVal_ws (show wsB '\n' = true from rfl)]
  rw [rt_val (sizeOf o) o le_rfl hwf _ ['\n']
    (by
      have h1 := fuel_bound (sizeOf o) o le_rfl
      simp only [List.length_cons, List.length_append]
      omega)
    rfl]
  simp [skipWs, wsB]

theorem stripFences_fence {s : List Char} (h : hasSub triTicks s = false) :
    stripFences (fenceWrap s) = '\n' :: (s ++ ['\n']) := by
  have h1 : hasSub triTicks (fenceWrap s) = true := by
    refine hasSub_of_drop (i := 0) ?_
    rw [List.drop_zero]
    exact isPre_trans (show isPre triTicks jsonTicks = true from rfl)
      (isPre_self_app jsonTicks ('\n' :: s ++ '\n' :: triTicks))
  have hsJ : pySplit jsonTicks (fenceWrap s)
      = [[], ('\n' :: s ++ ['\n']) ++ triTicks] := by
    rw [show fenceWrap s = jsonTicks ++ (('\n' :: s ++ ['\n']) ++ triTicks) from by
      show jsonTicks ++ ('\n' :: s ++ '\n' :: triTicks) = _
      simp]
    rw [pySplit_hit jsonTicks _ (by decide)]
    rw [pySplit_not_sub jsonTicks _ (by simpa using sepJ_not_in (d := s) h)]
  have hsT : pySplit triTicks (('\n' :: s ++ ['\n']) ++ triTicks)
      = [('\n' :: s ++ ['\n']), []] := by
    rw [pySplit_skip triTicks _ triTicks (by
      intro i hi
      have := tri_not_in_mid (d := s) h i (by simpa using hi)
      simpa using this)]
    rw [show pySplit triTicks triTicks = [[], []] from rfl]
    simp [consHead]
  unfold stripFences
  rw [if_pos h1, hsJ]
  show (pySplit triTicks (('\n' :: s ++ ['\n']) ++ triTicks)).headD [] = '\n' :: (s ++ ['\n'])
  rw [hsT]
  rfl

theorem extractRaw_fence {o : Json} (hwf : wfB o = true)
    (hfence : hasSub triTicks (dumps o) = false) :
    extractRaw (fenceWrap (dumps o)) = some o := by
  unfold extractRaw
  have hne : orBraces (fenceWrap (dumps o)) = fenceWrap (dumps o) := by
    unfold orBraces
    rw [if_neg (by
      rw [show (fenceWrap (dumps o)).isEmpty = false from rfl]
      simp)]
  have hsh : fenceWrap (dumps o)
      = (Char.ofNat 96) :: (("``json".data ++ ('\n' :: (dumps o ++ ('\n' :: "``".data))))
          ++ [Char.ofNat 96]) := by
    show (Char.ofNat 96) :: ("``json".data ++ ('\n' :: dumps o ++ '\n' :: ("``".data ++ [Char.ofNat 96]))) = _
    simp
  have hstrip : pyStrip (fenceWrap (dumps o)) = fenceWrap (dumps o) := by
    rw [hsh, pyStrip_id (by decide) (by decide)]
  rw [hne, hstrip, stripFences_fence hfence, loads_dumps hwf]

theorem objGetD_insert (kvs : List (List Char × Json)) (k : List Char) (v d : Json) :
    objGetD (objInsert kvs k v) k d = v := by
  induction kvs with
  | nil => simp [objInsert, objGetD, objGet]
  | cons p rest ih =>
    obtain ⟨k', v'⟩ := p
    by_cases h : k' = k
    · subst h
      simp [objInsert, objGetD, objGet]
    · simp only [objInsert, if_neg h]
      simp only [objGetD, objGet, if_neg h]
      exact ih

theorem scoreOne_shape {gen : List Char → List Char} {tpl kw : List Char} {o : Json}
    (h : scoreOne gen tpl kw = some o) :
    ∃ kvs, o = Json.obj kvs ∧
      ((∃ n : Int, 10 ≤ n ∧ n ≤ 100 ∧ objGetD kvs relKey (Json.num 0) = Json.num n) ∨
        pyNumVal (objGetD kvs relKey (Json.num 0)) = none) := by
  unfold scoreOne at h
  cases he : extractRaw (gen (pyReplace tpl kwPlaceholder kw)) with
  | none => rw [he] at h; cases h
  | some j =>
    rw [he] at h
    cases j with
    | obj kvs' =>
      dsimp only [] at h
      cases hn : pyNumVal (objGetD kvs' relKey (Json.num 0)) with
      | some n =>
        rw [hn] at h
        refine ⟨objInsert kvs' relKey (Json.num (max 10 (min 100 n))), by
          cases h; rfl, Or.inl ⟨max 10 (min 100 n), by omega, by omega, objGetD_insert _ _ _ _⟩⟩
      | none =>
        rw [hn] at h
        exact ⟨kvs', by cases h; rfl, Or.inr hn⟩
    | null => cases h
    | bool b => cases h
    | num n => cases h
    | str s => cases h
    | arr xs => cases h

theorem filterGeM_mem {k : Int} :
    ∀ {xs ys : List Json}, filterGeM k xs = some ys → ∀ o ∈ ys, o ∈ xs ∧
      ∃ kvs n, o = Json.obj kvs ∧ pyNumVal (objGetD kvs relKey (Json.num 0)) = some n ∧ k ≤ n := by
  intro xs
  induction xs with
  | nil =>
    intro ys h o ho
    cases h
    cases ho
  | cons x rest ih =>
    intro ys h o ho
    unfold filterGeM at h
    cases x with
    | obj kvs =>
      dsimp only [] at h
      cases hn : pyNumVal (objGetD kvs relKey (Json.num 0)) with
      | none => rw [hn] at h; cases h
      | some n =>
        rw [hn] at h
        cases ht : filterGeM k rest with
        | none => rw [ht] at h; cases h
        | some tl =>
          rw [ht] at h
          cases h
          by_cases hk : k ≤ n
          · rw [if_pos hk] at ho
            rcases List.mem_cons.1 ho with h1 | h2
            · subst h1
              exact ⟨by simp, kvs, n, rfl, hn, hk⟩
            · obtain ⟨hmem, rest'⟩ := ih ht o h2
              exact ⟨by simp [hmem], rest'⟩
          · rw [if_neg hk] at ho
            obtain ⟨hmem, rest'⟩ := ih ht o ho
            exact ⟨by simp [hmem], rest'⟩
    | null => cases h
    | bool b => cases h
    | num n => cases h
    | str s => cases h
    | arr xs' => cases h

theorem filterGeM_len {k : Int} :
    ∀ {xs ys : List Json}, filterGeM k xs = some ys → ys.length ≤ xs.length := by
  intro xs
  induction xs with
  | nil => intro ys h; cases h; simp
  | cons x rest ih =>
    intro ys h
    unfold filterGeM at h
    cases x with
    | obj kvs =>
      dsimp only [] at h
      cases hn : pyNumVal (objGetD kvs relKey (Json.num 0)) with
      | none => rw [hn] at h; cases h
      | some n =>
        rw [hn] at h
        cases ht : filterGeM k rest with
        | none => rw [ht] at h; cases h
        | some tl =>
          rw [ht] at h
          cases h
          have := ih ht
          split <;> simp <;> omega
    | null => cases h
    | bool b => cases h
    | num n => cases h
    | str s => cases h
    | arr xs' => cases h

theorem filterGeM_all {k : Int} :
    ∀ {xs ys : List Json}, filterGeM k xs = some ys → ∀ o ∈ xs,
      ∃ kvs n, o = Json.obj kvs ∧ pyNumVal (objGetD kvs relKey (Json.num 0)) = some n := by
  intro xs
  induction xs with
  | nil => intro ys _ o ho; cases ho
  | cons x rest ih =>
    intro ys h o ho
    unfold filterGeM at h
    cases x with
    | obj kvs =>
      dsimp only [] at h
      cases hn : pyNumVal (objGetD kvs relKey (Json.num 0)) with
      | none => rw [hn] at h; cases h
      | some n =>
        rw [hn] at h
        cases ht : filterGeM k rest with
        | none => rw [ht] at h; cases h
        | some tl =>
          rcases List.mem_cons.1 ho with h1 | h2
          · subst h1; exact ⟨kvs, n, rfl, hn⟩
          · exact ih ht o h2
    | null => cases h
    | bool b => cases h
    | num n => cases h
    | str s => cases h
    | arr xs' => cases h

theorem filterGeM_of_all {k : Int} :
    ∀ {xs : List Json}, (∀ o ∈ xs,
        ∃ kvs n, o = Json.obj kvs ∧ pyNumVal (objGetD kvs relKey (Json.num 0)) = some n) →
      ∃ ys, filterGeM k xs = some ys := by
  intro xs
  induction xs with
  | nil => intro _; exact ⟨[], rfl⟩
  | cons x rest ih =>
    intro hall
    obtain ⟨kvs, n, rfl, hn⟩ := hall x (by simp)
    obtain ⟨ys, hys⟩ := ih (fun o ho => hall o (by simp [ho]))
    refine ⟨if k ≤ n then Json.obj kvs :: ys else ys, ?_⟩
    unfold filterGeM
    dsimp only []
    rw [hn, hys]

theorem filterGeM_bad {k : Int} {kvs : List (List Char × Json)}
    (hn : pyNumVal (objGetD kvs relKey (Json.num 0)) = none) :
    ∀ {xs : List Json}, Json.obj kvs ∈ xs → filterGeM k xs = none := by
  intro xs
  induction xs with
  | nil => intro h; cases h
  | cons x rest ih =>
    intro hmem
    rcases List.mem_cons.1 hmem with h1 | h2
    · subst h1
      unfold filterGeM
      dsimp only []
      rw [hn]
    · unfold filterGeM
      cases x with
      | obj kvs' =>
        dsimp only []
        cases hn' : pyNumVal (objGetD kvs' relKey (Json.num 0)) with
        | none => rfl
        | some n' => rw [ih h2]
      | null => rfl
      | bool b => rfl
      | num n' => rfl
      | str s => rfl
      | arr xs' => rfl

theorem kombatRaw_mem {gen : List Char → List Char} {req : KeywordKombatRequest}
    {tpl : List Char} {o : Json} (h : o ∈ kombatRaw gen req tpl) :
    pyTruthy o = true ∧ ∃ kw ∈ kwsOf req, scoreOne gen tpl kw = some o := by
  unfold kombatRaw at h
  have h1 := List.mem_filter.1 h
  obtain ⟨j, hj, hjo⟩ := List.mem_filterMap.1 h1.1
  obtain ⟨kw, hkw, hsc⟩ := List.mem_map.1 hj
  cases hjo
  exact ⟨h1.2, kw, hkw, hsc⟩

theorem kombatRaw_mem_intro {gen : List Char → List Char} {req : KeywordKombatRequest}
    {tpl kw : List Char} {o : Json} (hkw : kw ∈ kwsOf req)
    (hsc : scoreOne gen tpl kw = some o) (ht : pyTruthy o = true) :
    o ∈ kombatRaw gen req tpl := by
  unfold kombatRaw
  refine List.mem_filter.2 ⟨?_, ht⟩
  exact List.mem_filterMap.2 ⟨some o, List.mem_map.2 ⟨kw, hkw, hsc⟩, rfl⟩

theorem kombatRaw_len (gen : List Char → List Char) (req : KeywordKombatRequest)
    (tpl : List Char) : (kombatRaw gen req tpl).length ≤ (kwsOf req).length := by
  unfold kombatRaw
  calc ((((kwsOf req).map (scoreOne gen tpl)).filterMap id).filter pyTruthy).length
      ≤ (((kwsOf req).map (scoreOne gen tpl)).filterMap id).length :=
        List.length_filter_le _ _
    _ ≤ ((kwsOf req).map (scoreOne gen tpl)).length := List.length_filterMap_le _ _
    _ = (kwsOf req).length := List.length_map _ _

theorem kombat_some_elim {gen : List Char → List Char} {req : KeywordKombatRequest}
    {res : List Json} (h : process_keyword_kombat gen req = some res) :
    ∃ tpl f80, mkTpl (companyOf gen req) = some tpl ∧
      filterGeM 80 (kombatRaw gen req tpl) = some f80 ∧
      ((f80 ≠ [] ∧ res = f80) ∨
        (f80 = [] ∧ req.test_mode = true ∧ res = (kwsOf req).map placeholderRow) ∨
        (f80 = [] ∧ req.test_mode = false ∧ filterGeM 50 (kombatRaw gen req tpl) = some res)) := by
  unfold process_keyword_kombat at h
  cases hm : mkTpl (companyOf gen req) with
  | none => rw [hm] at h; cases h
  | some tpl =>
    rw [hm] at h
    unfold kombatRun at h
    dsimp only [] at h
    cases h80 : filterGeM 80 (kombatRaw gen req tpl) with
    | none => rw [h80] at h; cases h
    | some results =>
      rw [h80] at h
      dsimp only [] at h
      by_cases hemp : results.isEmpty
      · rw [if_pos hemp] at h
        have hnil : results = [] := List.isEmpty_iff.1 hemp
        cases htest : req.test_mode with
        | true =>
          rw [htest] at h
          simp only [if_true] at h
          cases h
          exact ⟨tpl, [], rfl, hnil ▸ h80, Or.inr (Or.inl ⟨rfl, rfl, rfl⟩)⟩
        | false =>
          rw [htest] at h
          rw [if_neg (by simp)] at h
          exact ⟨tpl, [], rfl, hnil ▸ h80, Or.inr (Or.inr ⟨rfl, rfl, h⟩)⟩
      · rw [if_neg hemp] at h
        obtain rfl : results = res := by injection h
        exact ⟨tpl, results, rfl, h80,
          Or.inl ⟨fun hn => hemp (by simp [hn]), rfl⟩⟩

theorem chunksGo_fuel {α : Type} (bs : Nat) (hbs : 0 < bs) :
    ∀ f g (l : List α), l.length ≤ f → l.length ≤ g → chunksGo bs f l = chunksGo bs g l := by
  intro f
  induction f with
  | zero =>
    intro g l hf _
    have hl : l = [] := List.eq_nil_of_length_eq_zero (Nat.le_zero.1 hf)
    subst hl
    cases g <;> simp [chunksGo]
  | succ f ih =>
    intro g l hf hg
    cases g with
    | zero =>
      have hl : l = [] := List.eq_nil_of_length_eq_zero (Nat.le_zero.1 hg)
      subst hl
      simp [chunksGo]
    | succ g =>
      simp only [chunksGo]
      by_cases hl : l.isEmpty
      · rw [if_pos hl, if_pos hl]
      · rw [if_neg hl, if_neg hl]
        have hlen : 1 ≤ l.length := by
          cases l with
          | nil => simp at hl
          | cons a b => simp
        rw [ih g (l.drop bs) (by simp; omega) (by simp; omega)]

theorem chunks_cons {α : Type} {bs : Nat} (hbs : 0 < bs) {l : List α} (hl : l ≠ []) :
    chunksOf bs l = l.take bs :: chunksOf bs (l.drop bs) := by
  unfold chunksOf
  obtain ⟨m, hm⟩ : ∃ m, l.length = m + 1 := by
    cases l with
    | nil => exact absurd rfl hl
    | cons a b => exact ⟨b.length, by simp⟩
  rw [hm]
  simp only [chunksGo]
  rw [if_neg (by simp [List.isEmpty_iff, hl])]
  rw [chunksGo_fuel bs hbs m (l.drop bs).length (l.drop bs) (by simp; omega) le_rfl]

theorem chunks_eq_nil {α : Type} {bs : Nat} (hbs : 0 < bs) {l : List α} :
    chunksOf bs l = [] ↔ l = [] := by
  constructor
  · intro h
    by_contra hl
    rw [chunks_cons hbs hl] at h
    cases h
  · intro h
    subst h
    rfl

theorem chunks_join {α : Type} {bs : Nat} (hbs : 0 < bs) :
    ∀ n (l : List α), l.length ≤ n → (chunksOf bs l).flatten = l := by
  intro n
  induction n with
  | zero =>
    intro l hf
    have hl : l = [] := List.eq_nil_of_length_eq_zero (Nat.le_zero.1 hf)
    subst hl
    rfl
  | succ n ih =>
    intro l hf
    by_cases hl : l = []
    · subst hl; rfl
    · rw [chunks_cons hbs hl]
      have hlen : 1 ≤ l.length := by
        cases l with
        | nil => exact absurd rfl hl
        | cons a b => simp
      rw [List.flatten_cons, ih (l.drop bs) (by simp; omega)]
      exact List.take_append_drop bs l

theorem chunks_mem {α : Type} {bs : Nat} (hbs : 0 < bs) :
    ∀ n (l : List α), l.length ≤ n → ∀ c ∈ chunksOf bs l, c ≠ [] ∧ c.length ≤ bs := by
  intro n
  induction n with
  | zero =>
    intro l hf c hc
    have hl : l = [] := List.eq_nil_of_length_eq_zero (Nat.le_zero.1 hf)
    subst hl
    cases hc
  | succ n ih =>
    intro l hf c hc
    by_cases hl : l = []
    · subst hl; cases hc
    · rw [chunks_cons hbs hl] at hc
      have hlen : 1 ≤ l.length := by
        cases l with
        | nil => exact absurd rfl hl
        | cons a b => simp
      rcases List.mem_cons.1 hc with h1 | h2
      · subst h1
        constructor
        · have : (l.take bs).length = min bs l.length := List.length_take bs l
          intro hnil
          rw [hnil] at this
          simp at this
          omega
        · rw [List.length_take]
          omega
      · exact ih (l.drop bs) (by simp; omega) c h2

theorem chunks_not_last {α : Type} {bs : Nat} (hbs : 0 < bs) :
    ∀ n (l : List α), l.length ≤ n → ∀ i, i + 1 < (chunksOf bs l).length →
      ((chunksOf bs l).getD i []).length = bs := by
  intro n
  induction n with
  | zero =>
    intro l hf i hi
    have hl : l = [] := List.eq_nil_of_length_eq_zero (Nat.le_zero.1 hf)
    subst hl
    simp [chunksOf, chunksGo] at hi
  | succ n ih =>
    intro l hf i hi
    by_cases hl : l = []
    · subst hl; simp [chunksOf, chunksGo] at hi
    · have hlen : 1 ≤ l.length := by
        cases l with
        | nil => exact absurd rfl hl
        | cons a b => simp
      rw [chunks_cons hbs hl] at hi ⊢
      cases i with
      | zero =>
        simp only [List.getD_cons_zero]
        simp only [List.length_cons] at hi
        have hne : chunksOf bs (l.drop bs) ≠ [] := by
          intro heq
          rw [heq] at hi
          simp at hi
        have hdrop : l.drop bs ≠ [] := (chunks_eq_nil hbs).not.1 hne
        have : bs < l.length := by
          by_contra hge
          exact hdrop (List.drop_eq_nil_of_le (by omega))
        rw [List.length_take]
        omega
      | succ i =>
        simp only [List.getD_cons_succ]
        simp only [List.length_cons] at hi
        exact ih (l.drop bs) (by simp; omega) i (by omega)

theorem rangeUp_slices {α : Type} {bs : Int} (hbs : 1 ≤ bs) (items : List α) :
    ∀ f (i : Int), 0 ≤ i → ((items.length : Int) - i).toNat ≤ f →
      (rangeUpGo f i items.length bs).map (fun j => pySlice items j (j + bs))
        = chunksOf bs.toNat (items.drop i.toNat) := by
  intro f
  induction f with
  | zero =>
    intro i hi hf
    have hge : (items.length : Int) ≤ i := by omega
    have hdrop : items.drop i.toNat = [] := List.drop_eq_nil_of_le (by omega)
    rw [hdrop]
    rfl
  | succ f ih =>
    intro i hi hf
    simp only [rangeUpGo]
    by_cases hlt : i < (items.length : Int)
    · rw [if_pos hlt]
      simp only [List.map_cons]
      have hslice : pySlice items i (i + bs) = (items.drop i.toNat).take bs.toNat := by
        unfold pySlice
        congr 1
        omega
      rw [hslice, ih (i + bs) (by omega) (by omega)]
      have hdd : items.drop (i + bs).toNat = (items.drop i.toNat).drop bs.toNat := by
        rw [List.drop_drop]
        congr 1
        omega
      rw [hdd]
      rw [← chunks_cons (by omega) ?hne]
      case hne =>
        intro heq
        have := congrArg List.length heq
        simp at this
        omega
    · rw [if_neg hlt]
      have hdrop : items.drop i.toNat = [] := List.drop_eq_nil_of_le (by omega)
      rw [hdrop]
      rfl

theorem foldl_acc_flatten {α β : Type} (F : α → List β) :
    ∀ (idxs : List α) (acc : List β),
      idxs.foldl (fun a i => a ++ F i) acc = acc ++ (idxs.map F).flatten := by
  intro idxs
  induction idxs with
  | nil => intro acc; simp
  | cons i t ih =>
    intro acc
    simp only [List.foldl_cons, List.map_cons, List.flatten_cons]
    rw [ih]
    simp

theorem flatten_map_filterMap {α β : Type} (f : α → Option β) :
    ∀ (cs : List (List α)), ((cs.map (fun c => c.filterMap f)).flatten) = cs.flatten.filterMap f := by
  intro cs
  induction cs with
  | nil => rfl
  | cons c t ih =>
    simp only [List.map_cons, List.flatten_cons, List.filterMap_append, ih]

theorem sliceResults_append (gen : List Char → List Char) (req : FreestyleRequest)
    (x y : List (List Char × List Json)) :
    sliceResults gen req (x ++ y) = sliceResults gen req x ++ sliceResults gen req y := by
  unfold sliceResults
  exact List.filterMap_append _ _ _

theorem rangeUp_fold {α β : Type} {bs : Int} (hbs : 1 ≤ bs) (items : List α)
    (S : List α → List β) (hS : ∀ x y, S (x ++ y) = S x ++ S y) :
    ∀ f (i : Int) (acc : List β), 0 ≤ i → ((items.length : Int) - i).toNat ≤ f →
      (rangeUpGo f i items.length bs).foldl
          (fun a j => a ++ S (pySlice items j (j + bs))) acc
        = acc ++ S (items.drop i.toNat) := by
  intro f
  induction f with
  | zero =>
    intro i acc hi hf
    have hdrop : items.drop i.toNat = [] := List.drop_eq_nil_of_le (by omega)
    rw [hdrop]
    have hS0 : S [] = [] := by
      have := hS [] []
      simp at this
      cases h0 : S [] with
      | nil => rfl
      | cons a b =>
        rw [h0] at this
        exact absurd this (by simp)
    simp [rangeUpGo, hS0]
  | succ f ih =>
    intro i acc hi hf
    simp only [rangeUpGo]
    by_cases hlt : i < (items.length : Int)
    · rw [if_pos hlt]
      simp only [List.foldl_cons]
      rw [ih (i + bs) _ (by omega) (by omega)]
      have hslice : pySlice items i (i + bs) = (items.drop i.toNat).take bs.toNat := by
        unfold pySlice
        congr 1
        omega
      have hdd : items.drop (i + bs).toNat = (items.drop i.toNat).drop bs.toNat := by
        rw [List.drop_drop]
        congr 1
        omega
      rw [hslice, hdd, List.append_assoc, ← hS, List.take_append_drop]
    · rw [if_neg hlt]
      have hdrop : items.drop i.toNat = [] := List.drop_eq_nil_of_le (by omega)
      rw [hdrop]
      have hS0 : S [] = [] := by
        have := hS [] []
        simp at this
        cases h0 : S [] with
        | nil => rfl
        | cons a b =>
          rw [h0] at this
          exact absurd this (by simp)
      simp [rangeUpGo, hS0]

theorem rows_results {gen : List Char → List Char} {req : FreestyleRequest}
    (hbs : 1 ≤ req.batch_size) :
    process_rows_freestyle gen req = some (RowsResult.mk true
      (sliceResults gen req req.data)
      (sliceResults gen req req.data).length
      req.data.length) := by
  unfold process_rows_freestyle
  dsimp only []
  have hrange : pyRange 0 req.data.length req.batch_size
      = some (rangeUpGo ((req.data.length : Int) - 0).toNat 0 req.data.length req.batch_size) := by
    unfold pyRange
    rw [if_pos (by omega)]
  rw [hrange]
  dsimp only []
  rw [rangeUp_fold hbs req.data (sliceResults gen req) (sliceResults_append gen req)
    (((req.data.length : Int) - 0).toNat) 0 [] (by omega) (by omega)]
  simp

theorem rows_bs_zero {gen : List Char → List Char} {req : FreestyleRequest}
    (h : req.batch_size = 0) : process_rows_freestyle gen req = none := by
  unfold process_rows_freestyle
  dsimp only []
  rw [show pyRange 0 req.data.length req.batch_size = none from by
    unfold pyRange
    rw [h]
    norm_num]

theorem rows_bs_neg {gen : List Char → List Char} {req : FreestyleRequest}
    (h : req.batch_size < 0) :
    process_rows_freestyle gen req = some (RowsResult.mk true [] 0 req.data.length) := by
  unfold process_rows_freestyle
  dsimp only []
  rw [show pyRange 0 req.data.length req.batch_size
      = some (rangeDownGo ((0 : Int) - req.data.length).toNat 0 req.data.length req.batch_size) from by
    unfold pyRange
    rw [if_neg (by omega), if_pos h]]
  rw [show ((0 : Int) - req.data.length).toNat = 0 from by omega]
  rfl

theorem slicesOf_chunks {α : Type} {bs : Int} (hbs : 1 ≤ bs) (items : List α) :
    slicesOf items bs = some (chunksOf bs.toNat items) := by
  unfold slicesOf
  rw [show pyRange 0 items.length bs
      = some (rangeUpGo ((items.length : Int) - 0).toNat 0 items.length bs) from by
    unfold pyRange
    rw [if_pos (by omega)]]
  dsimp only []
  rw [rangeUp_slices hbs items _ 0 (by omega) (by omega)]
  simp

theorem map_flatten_hom {α β : Type} (S : List α → List β)
    (hS : ∀ x y, S (x ++ y) = S x ++ S y) (h0 : S [] = []) :
    ∀ cs : List (List α), (cs.map S).flatten = S cs.flatten := by
  intro cs
  induction cs with
  | nil => simp [h0]
  | cons c t ih => simp [hS, ih]

theorem extractObj_obj {r : List Char} {o : Json} (h : extractObj r = some o) :
    ∃ kvs, o = Json.obj kvs := by
  unfold extractObj at h
  cases he : extractRaw r with
  | none => rw [he] at h; cases h
  | some v =>
    rw [he] at h
    cases h
    cases v with
    | obj kvs => exact ⟨kvs, rfl⟩
    | null => exact ⟨_, rfl⟩
    | bool b => exact ⟨_, rfl⟩
    | num n => exact ⟨_, rfl⟩
    | str s => exact ⟨_, rfl⟩
    | arr xs => exact ⟨_, rfl⟩

theorem run_row_some {gen : List Char → List Char} {req : FreestyleRequest}
    {k : List Char} {v : List Json} {p : List Char × Json}
    (h : run_row gen req k v = some p) : p.1 = k ∧ ∃ kvs, p.2 = Json.obj kvs := by
  unfold run_row at h
  cases he : extractObj (orBraces (gen (rowPrompt req.headers req.prompt v))) with
  | none => rw [he] at h; cases h
  | some o =>
    rw [he] at h
    cases h
    exact ⟨rfl, extractObj_obj he⟩

theorem sliceResults_mem {gen : List Char → List Char} {req : FreestyleRequest}
    {l : List (List Char × List Json)} {o : Json} (h : o ∈ sliceResults gen req l) :
    ∃ kv ∈ l, ∃ kvs, run_row gen req kv.1 kv.2 = some (kv.1, Json.obj kvs) ∧
      o = mergeRowKey kv.1 (Json.obj kvs) := by
  unfold sliceResults at h
  obtain ⟨kv, hkv, hout⟩ := List.mem_filterMap.1 h
  cases hr : run_row gen req kv.1 kv.2 with
  | none => rw [hr] at hout; cases hout
  | some p =>
    rw [hr] at hout
    obtain ⟨rk, o'⟩ := p
    dsimp only [] at hout
    obtain ⟨h1, kvs, h2⟩ := run_row_some hr
    simp only [] at h1 h2
    subst h1
    subst h2
    cases hout
    exact ⟨kv, hkv, kvs, hr, rfl⟩

theorem objGet_none_iff {kvs : List (List Char × Json)} {k : List Char} :
    objGet kvs k = none ↔ ∀ p ∈ kvs, p.1 ≠ k := by
  induction kvs with
  | nil => simp [objGet]
  | cons p rest ih =>
    obtain ⟨k', v'⟩ := p
    by_cases h : k' = k
    · subst h
      simp only [objGet, if_pos rfl]
      constructor
      · intro hc; exact absurd hc (by simp)
      · intro hall; exact absurd rfl (hall (k', v') (by simp))
    · simp only [objGet, if_neg h, ih]
      constructor
      · intro hall q hq
        rcases List.mem_cons.1 hq with h1 | h2
        · subst h1; exact h
        · exact hall q h2
      · intro hall q hq
        exact hall q (by simp [hq])

theorem objGet_insert_other {base : List (List Char × Json)} {k' k : List Char} {v : Json}
    (h : k' ≠ k) : objGet (objInsert base k' v) k = objGet base k := by
  induction base with
  | nil => simp [objInsert, objGet, h]
  | cons p rest ih =>
    obtain ⟨k0, v0⟩ := p
    by_cases h0 : k0 = k'
    · subst h0
      simp only [objInsert, if_pos rfl]
      simp [objGet, h]
    · simp only [objInsert, if_neg h0]
      by_cases h1 : k0 = k
      · subst h1
        simp [objGet]
      · simp only [objGet, if_neg h1]
        exact ih

theorem objGet_insert_self (kvs : List (List Char × Json)) (k : List Char) (v : Json) :
    objGet (objInsert kvs k v) k = some v := by
  induction kvs with
  | nil => simp [objInsert, objGet]
  | cons p rest ih =>
    obtain ⟨k', v'⟩ := p
    by_cases h : k' = k
    · subst h
      simp [objInsert, objGet]
    · simp only [objInsert, if_neg h]
      simp only [objGet, if_neg h]
      exact ih

theorem objGet_insert_isSome {base : List (List Char × Json)} {k' k : List Char} {v : Json}
    (h : (objGet base k).isSome = true) :
    (objGet (objInsert base k' v) k).isSome = true := by
  by_cases hk : k' = k
  · subst hk
    rw [objGet_insert_self]
    rfl
  · rw [objGet_insert_other hk]
    exact h

theorem objGet_foldl_fresh {key : List Char} :
    ∀ (ps : List (List Char × Json)) (base : List (List Char × Json)),
      (∀ p ∈ ps, p.1 ≠ key) →
      objGet (ps.foldl (fun acc kv => objInsert acc kv.1 kv.2) base) key = objGet base key := by
  intro ps
  induction ps with
  | nil => intro base _; rfl
  | cons p t ih =>
    intro base hall
    simp only [List.foldl_cons]
    rw [ih (objInsert base p.1 p.2) (fun q hq => hall q (by simp [hq]))]
    exact objGet_insert_other (hall p (by simp))

theorem objGet_foldl_isSome {key : List Char} :
    ∀ (ps : List (List Char × Json)) (base : List (List Char × Json)),
      (objGet base key).isSome = true →
      (objGet (ps.foldl (fun acc kv => objInsert acc kv.1 kv.2) base) key).isSome = true := by
  intro ps
  induction ps with
  | nil => intro base h; exact h
  | cons p t ih =>
    intro base h
    simp only [List.foldl_cons]
    exact ih (objInsert base p.1 p.2) (objGet_insert_isSome h)

theorem mergeRowKey_get {rk : List Char} {kvs : List (List Char × Json)} :
    ∃ kvs', mergeRowKey rk (Json.obj kvs) = Json.obj kvs' ∧
      (objGet kvs' "row_key".data).isSome = true ∧
      (objGet kvs "row_key".data = none →
        objGet kvs' "row_key".data = some (Json.str rk)) := by
  refine ⟨dictMerge [("row_key".data, Json.str rk)] kvs, rfl, ?_, ?_⟩
  · unfold dictMerge
    exact objGet_foldl_isSome kvs _ (by simp [objGet])
  · intro hnone
    unfold dictMerge
    rw [objGet_foldl_fresh kvs _ (objGet_none_iff.1 hnone)]
    simp [objGet]

/-- Claim C4 (corrected). For a JSON object whose serialization contains no
fence marker, serializing, wrapping in a labelled fenced code block and
extracting returns the object unchanged; and extracting the bare array
`[1,2]` yields the wrapped object `{"output": [1,2]}`. The original claim
quantified over every JSON object; an object whose serialized form contains
"```" inside a string value breaks the fence-stripping heuristic
(see the counterexample), so the no-fence-marker condition is required. -/
theorem c4_roundtrip (kvs : List (List Char × Json)) (hwf : wfB (Json.obj kvs) = true)
    (hfence : hasSub triTicks (dumps (Json.obj kvs)) = false) :
    extractObj (fenceWrap (dumps (Json.obj kvs))) = some (Json.obj kvs) ∧
      extractObj "[1,2]".data
        = some (Json.obj [("output".data, Json.arr [Json.num 1, Json.num 2])]) := by
  constructor
  · unfold extractObj
    rw [extractRaw_fence hwf hfence]
    rfl
  · rfl

/-- Claim C4 counterexample: the object `{"a": "```"}` is well formed, but
running its fenced serialization through extraction fails (the inner fence
marker truncates the split), so extraction does not return the object. -/
theorem c4_counterexample :
    wfB fenceObj = true ∧ extractObj (fenceWrap (dumps fenceObj)) = none := ⟨rfl, rfl⟩

/-- Claim C4 witness: the round trip at a concrete three-field object. -/
theorem c4_witness :
    extractObj (fenceWrap (dumps rtObj)) = some rtObj ∧
      extractObj "[1,2]".data
        = some (Json.obj [("output".data, Json.arr [Json.num 1, Json.num 2])]) := by
  have h := c4_roundtrip
    [("a".data, Json.str "x\"y".data), ("b".data, Json.num 230),
      ("c".data, Json.arr [Json.bool true, Json.null])] rfl rfl
  exact h

/-- Claim C6 (confirmed). When the company-research reply fails JSON
extraction, `process_keyword_kombat` substitutes the default object
`{"company_name": company_url}` and continues with the scoring template
built from that default; the research stage never aborts the request. -/
theorem c6_research_fallback (gen : List Char → List Char) (req : KeywordKombatRequest)
    (h : extractRaw (gen (researchPrompt req)) = none) :
    companyOf gen req = Json.obj [("company_name".data, Json.str req.company_url)] ∧
      process_keyword_kombat gen req = kombatRun gen req (kombatTpl req.company_url []) := by
  have hc : companyOf gen req = Json.obj [("company_name".data, Json.str req.company_url)] := by
    unfold companyOf
    rw [h]
  refine ⟨hc, ?_⟩
  unfold process_keyword_kombat
  rw [hc]
  rfl

/-- Claim C6 witness: with replies that never parse, the pipeline returns
the continued (empty) production result rather than aborting. -/
theorem c6_witness :
    companyOf genBad reqOneKwProd
        = Json.obj [("company_name".data, Json.str reqOneKwProd.company_url)] ∧
      process_keyword_kombat genBad reqOneKwProd
        = kombatRun genBad reqOneKwProd (kombatTpl reqOneKwProd.company_url []) :=
  c6_research_fallback genBad reqOneKwProd rfl

/-- Claim C5 (corrected/amended). In `loop_over_rows_fastapi_app.py` every
error the `POST /process` handler returns carries HTTP status 500: the
`try` block wraps the pydantic validation as well, so request-shape
validation failures are caught by `except Exception` and rethrown as
`HTTPException(500, "Processing failed: ...")` instead of a 400. -/
theorem c5_always_500 (gen : List Char → List Char) (body : List (List Char × Json))
    (s : Nat) (d : List Char) (h : process_unified gen body = EndpointResult.httpError s d) :
    s = 500 := by
  unfold process_unified at h
  cases hm : modeOf body with
  | none =>
    rw [hm] at h
    dsimp only [] at h
    injection h with h1 _
    exact h1.symm
  | some m =>
    rw [hm] at h
    dsimp only [] at h
    by_cases hk : m = "keyword-kombat".data
    · rw [if_pos hk] at h
      cases hp : parseKombat body with
      | none =>
        rw [hp] at h
        injection h with h1 _
        exact h1.symm
      | some req =>
        rw [hp] at h
        dsimp only [] at h
        cases hr : process_keyword_kombat gen req with
        | none =>
          rw [hr] at h
          injection h with h1 _
          exact h1.symm
        | some results =>
          rw [hr] at h
          cases h
    · rw [if_neg hk] at h
      cases hp : parseFreestyle body with
      | none =>
        rw [hp] at h
        injection h with h1 _
        exact h1.symm
      | some req =>
        rw [hp] at h
        dsimp only [] at h
        cases hr : process_rows_freestyle gen req with
        | none =>
          rw [hr] at h
          injection h with h1 _
          exact h1.symm
        | some out =>
          rw [hr] at h
          cases h

/-- Claim C5 counterexample: a `keyword-kombat` body missing its required
fields fails validation, yet the endpoint answers 500 (not 400). -/
theorem c5_counterexample :
    parseKombat bodyMissing = none ∧
      process_unified genBad bodyMissing
        = EndpointResult.httpError 500 (procFail "ValidationError".data) ∧
      statusOf (process_unified genBad bodyMissing) ≠ 400 := by
  refine ⟨rfl, rfl, ?_⟩
  intro h
  rw [show statusOf (process_unified genBad bodyMissing) = 500 from rfl] at h
  cases h

/-- Claim C5 witness: the amended claim applied to the malformed body. -/
theorem c5_witness : (500 : Nat) = 500 ∧
    process_unified genBad bodyMissing
      = EndpointResult.httpError 500 (procFail "ValidationError".data) :=
  ⟨c5_always_500 genBad bodyMissing 500 (procFail "ValidationError".data) rfl, rfl⟩

/-- Claim C9 (confirmed). The `batch_size: positive integer` precondition
is not validated: with `batch_size = 0` and non-empty rows the slicing
loop's `range(0, n, 0)` raises `ValueError`, failing the whole request
(HTTP 500 at the endpoint); with a negative `batch_size` the loop body
never runs and an empty success response with `processed_count = 0` is
returned. (The zero case raises even for empty rows; the non-empty
hypothesis of the claim is kept but unused.) -/
theorem c9_batch_size (gen : List Char → List Char) (req : FreestyleRequest)
    (body : List (List Char × Json)) :
    (req.batch_size = 0 → req.data ≠ [] → process_rows_freestyle gen req = none) ∧
    (req.batch_size < 0 →
      process_rows_freestyle gen req = some (RowsResult.mk true [] 0 req.data.length)) ∧
    (parseFreestyle body = some req → modeOf body = some "freestyle".data →
      req.batch_size = 0 →
      process_unified gen body = EndpointResult.httpError 500 (procFail "ValueError".data)) := by
  refine ⟨fun h0 _ => rows_bs_zero h0, fun hneg => rows_bs_neg hneg, ?_⟩
  intro hp hm h0
  unfold process_unified
  rw [hm]
  dsimp only []
  rw [if_neg (by decide), hp]
  dsimp only []
  rw [rows_bs_zero h0]

/-- Claim C9 witness: concrete zero and negative batch sizes, including
the endpoint-level 500. -/
theorem c9_witness :
    process_rows_freestyle genSummary reqBatchZero = none ∧
    process_rows_freestyle genSummary reqBatchNeg
      = some (RowsResult.mk true [] 0 reqBatchNeg.data.length) ∧
    process_unified genSummary bodyBatchZero
      = EndpointResult.httpError 500 (procFail "ValueError".data) := by
  refine ⟨(c9_batch_size genSummary reqBatchZero bodyBatchZero).1 rfl (by intro h; cases h),
    (c9_batch_size genSummary reqBatchNeg bodyBatchZero).2.1 (by decide), ?_⟩
  exact (c9_batch_size genSummary reqBatchZero bodyBatchZero).2.2 rfl rfl rfl

/-- Claim C10 (confirmed). In score mode, when extraction succeeds but the
`RelevanceScore` field holds a non-numeric value, the clamp is skipped and
the keyword's item is kept unclamped by `score`; the later
`>= 80` comparison over the collected candidates then raises `TypeError`
outside any per-item handler, so the whole pipeline fails (`none`) and the
endpoint answers HTTP 500 rather than dropping only that item. -/
theorem c10_nonnumeric (gen : List Char → List Char) (req : KeywordKombatRequest)
    (body : List (List Char × Json)) (tpl kw : List Char) (kvs : List (List Char × Json))
    (hkw : kw ∈ kwsOf req)
    (hm : mkTpl (companyOf gen req) = some tpl)
    (hsc : extractRaw (gen (pyReplace tpl kwPlaceholder kw)) = some (Json.obj kvs))
    (hn : pyNumVal (objGetD kvs relKey (Json.num 0)) = none)
    (ht : pyTruthy (Json.obj kvs) = true) :
    scoreOne gen tpl kw = some (Json.obj kvs) ∧
    process_keyword_kombat gen req = none ∧
    (parseKombat body = some req → modeOf body = some "keyword-kombat".data →
      process_unified gen body = EndpointResult.httpError 500 (procFail "TypeError".data)) := by
  have hone : scoreOne gen tpl kw = some (Json.obj kvs) := by
    unfold scoreOne
    rw [hsc]
    dsimp only []
    rw [hn]
  have hmem : Json.obj kvs ∈ kombatRaw gen req tpl :=
    kombatRaw_mem_intro hkw hone ht
  have hproc : process_keyword_kombat gen req = none := by
    unfold process_keyword_kombat
    rw [hm]
    unfold kombatRun
    dsimp only []
    rw [filterGeM_bad hn hmem]
  refine ⟨hone, hproc, ?_⟩
  intro hp hmd
  unfold process_unified
  rw [hmd]
  dsimp only []
  rw [if_pos rfl, hp]
  dsimp only []
  rw [hproc]

/-- Claim C10 witness: a reply scoring `alpha` as the string `"high"`
passes extraction unclamped, and both the pipeline and the endpoint fail. -/
theorem c10_witness :
    scoreOne genTypeErr (kombatTpl [] []) "alpha".data
        = some (Json.obj [("RelevanceScore".data, Json.str "high".data)]) ∧
    process_keyword_kombat genTypeErr reqOneKwMode = none ∧
    process_unified genTypeErr bodyOneKw
      = EndpointResult.httpError 500 (procFail "TypeError".data) := by
  have h := c10_nonnumeric genTypeErr reqOneKwMode bodyOneKw (kombatTpl [] [])
    "alpha".data [("RelevanceScore".data, Json.str "high".data)]
    (by rw [show kwsOf reqOneKwMode = ["alpha".data] from rfl]; exact List.mem_singleton.2 rfl)
    rfl rfl rfl rfl
  exact ⟨h.1, h.2.1, h.2.2 rfl rfl⟩

/-- Claim C1 (corrected/amended). In test mode at most the first three
keywords are scored, so the result length is at most `min 3 len(keywords)`
— but not always equal to it: when some scored candidate clears the 80
threshold the response is the filtered list, which can be strictly
shorter (see the counterexample). Every returned item's `RelevanceScore`
does lie in `[10, 100]` (clamped candidates, or the synthetic 90). -/
theorem c1_test_mode {gen : List Char → List Char} {req : KeywordKombatRequest}
    {res : List Json} (htest : req.test_mode = true)
    (h : process_keyword_kombat gen req = some res) :
    res.length ≤ min 3 req.keywords.length ∧
    ∀ o ∈ res, ∃ kvs n, o = Json.obj kvs ∧
      objGetD kvs relKey (Json.num 0) = Json.num n ∧ 10 ≤ n ∧ n ≤ 100 := by
  have hkws : kwsOf req = req.keywords.take 3 := by
    unfold kwsOf
    rw [htest]
    simp
  have hkwlen : (kwsOf req).length = min 3 req.keywords.length := by
    rw [hkws]
    exact List.length_take 3 req.keywords
  obtain ⟨tpl, f80, hm, h80, hcase⟩ := kombat_some_elim h
  rcases hcase with ⟨hne, rfl⟩ | ⟨hemp, _, rfl⟩ | ⟨_, hfalse, _⟩
  · constructor
    · calc res.length ≤ (kombatRaw gen req tpl).length := filterGeM_len h80
        _ ≤ (kwsOf req).length := kombatRaw_len gen req tpl
        _ = min 3 req.keywords.length := hkwlen
    · intro o ho
      obtain ⟨hraw, kvs, n, rfl, hnum, _⟩ := filterGeM_mem h80 o ho
      obtain ⟨_, kw, _, hsc⟩ := kombatRaw_mem hraw
      obtain ⟨kvs₂, heq, hshape⟩ := scoreOne_shape hsc
      obtain rfl : kvs₂ = kvs := by injection heq.symm
      rcases hshape with ⟨m, hm10, hm100, hget⟩ | hbad
      · exact ⟨kvs₂, m, rfl, hget, hm10, hm100⟩
      · rw [hbad] at hnum
        cases hnum
  · constructor
    · rw [List.length_map, hkwlen]
    · intro o ho
      obtain ⟨kw, _, rfl⟩ := List.mem_map.1 ho
      exact ⟨[("Keyword".data, Json.str kw), (relKey, Json.num 90),
        ("Rationale".data, Json.str "Testmodus: Beispielausgabe für die UI".data)],
        90, rfl, rfl, by omega, by omega⟩
  · rw [htest] at hfalse
    cases hfalse

/-- Claim C1 counterexample: two keywords in test mode where only `alpha`
clears 80 yield one result, not `min 3 2 = 2`. -/
theorem c1_counterexample :
    reqTwoKwTest.test_mode = true ∧
    process_keyword_kombat genMixed reqTwoKwTest
      = some [Json.obj [("Keyword".data, Json.str "alpha".data), (relKey, Json.num 85)]] ∧
    [Json.obj [("Keyword".data, Json.str "alpha".data), (relKey, Json.num 85)]].length
      ≠ min 3 reqTwoKwTest.keywords.length :=
  ⟨rfl, rfl, by decide⟩

/-- Claim C1 witness: with unparseable replies and two keywords in test
mode the placeholder branch returns exactly two in-range rows. -/
theorem c1_witness :
    [placeholderRow "alpha".data, placeholderRow "beta".data].length
        ≤ min 3 reqTwoKwTest.keywords.length ∧
    ∀ o ∈ [placeholderRow "alpha".data, placeholderRow "beta".data], ∃ kvs n, o = Json.obj kvs ∧
      objGetD kvs relKey (Json.num 0) = Json.num n ∧ 10 ≤ n ∧ n ≤ 100 :=
  @c1_test_mode genBad reqTwoKwTest
    [placeholderRow "alpha".data, placeholderRow "beta".data] rfl rfl

/-- Claim C2 (confirmed). In production mode the returned list is either
the surviving candidates filtered at 80 (when that set is non-empty, so
every returned score is ≥ 80), or — exactly when the 80-filter over the
candidates came back empty — the same unfiltered candidate set re-filtered
at 50 (so every returned score is ≥ 50); the two branches are mutually
exclusive by the emptiness guard. -/
theorem c2_thresholds {gen : List Char → List Char} {req : KeywordKombatRequest}
    {res : List Json} (htest : req.test_mode = false)
    (h : process_keyword_kombat gen req = some res) :
    ∃ tpl f80, mkTpl (companyOf gen req) = some tpl ∧
      filterGeM 80 (kombatRaw gen req tpl) = some f80 ∧
      ((f80 ≠ [] ∧ res = f80 ∧
          ∀ o ∈ res, ∃ kvs n, o = Json.obj kvs ∧
            pyNumVal (objGetD kvs relKey (Json.num 0)) = some n ∧ 80 ≤ n) ∨
        (f80 = [] ∧ filterGeM 50 (kombatRaw gen req tpl) = some res ∧
          ∀ o ∈ res, ∃ kvs n, o = Json.obj kvs ∧
            pyNumVal (objGetD kvs relKey (Json.num 0)) = some n ∧ 50 ≤ n)) := by
  obtain ⟨tpl, f80, hm, h80, hcase⟩ := kombat_some_elim h
  refine ⟨tpl, f80, hm, h80, ?_⟩
  rcases hcase with ⟨hne, rfl⟩ | ⟨_, htrue, _⟩ | ⟨hemp, _, h50⟩
  · refine Or.inl ⟨hne, rfl, ?_⟩
    intro o ho
    obtain ⟨_, kvs, n, rfl, hnum, hge⟩ := filterGeM_mem h80 o ho
    exact ⟨kvs, n, rfl, hnum, hge⟩
  · rw [htest] at htrue
    cases htrue
  · refine Or.inr ⟨hemp, h50, ?_⟩
    intro o ho
    obtain ⟨_, kvs, n, rfl, hnum, hge⟩ := filterGeM_mem h50 o ho
    exact ⟨kvs, n, rfl, hnum, hge⟩

/-- Claim C2 witness: one production keyword scoring 85 lands in the
non-empty 80-branch. -/
theorem c2_witness :
    ∃ tpl f80, mkTpl (companyOf genMixed reqOneKwProd) = some tpl ∧
      filterGeM 80 (kombatRaw genMixed reqOneKwProd tpl) = some f80 ∧
      ((f80 ≠ [] ∧
          [Json.obj [("Keyword".data, Json.str "alpha".data), (relKey, Json.num 85)]] = f80 ∧
          ∀ o ∈ [Json.obj [("Keyword".data, Json.str "alpha".data), (relKey, Json.num 85)]],
            ∃ kvs n, o = Json.obj kvs ∧
              pyNumVal (objGetD kvs relKey (Json.num 0)) = some n ∧ 80 ≤ n) ∨
        (f80 = [] ∧ filterGeM 50 (kombatRaw genMixed reqOneKwProd tpl)
            = some [Json.obj [("Keyword".data, Json.str "alpha".data), (relKey, Json.num 85)]] ∧
          ∀ o ∈ [Json.obj [("Keyword".data, Json.str "alpha".data), (relKey, Json.num 85)]],
            ∃ kvs n, o = Json.obj kvs ∧
              pyNumVal (objGetD kvs relKey (Json.num 0)) = some n ∧ 50 ≤ n)) :=
  @c2_thresholds genMixed reqOneKwProd
    [Json.obj [("Keyword".data, Json.str "alpha".data), (relKey, Json.num 85)]] rfl rfl

theorem sliceResults_eq (gen : List Char → List Char) (req : FreestyleRequest) :
    ∀ l, sliceResults gen req l = l.filterMap (rowOut gen req) := by
  intro l
  induction l with
  | nil => rfl
  | cons kv t ih =>
    show sliceResults gen req (kv :: t) = _
    unfold sliceResults at ih ⊢
    rw [List.filterMap_cons, List.filterMap_cons, ih]
    unfold rowOut
    cases run_row gen req kv.1 kv.2 with
    | none => rfl
    | some p => rfl

/-- Claim C3 (corrected/amended). For positive `batch_size` the row-mode
response satisfies `processed_count ≤ total_count`, and every returned
object carries a `row_key` field — but its value is the originating
item's key only when the model's extracted object did not itself contain
a `row_key` entry: the dict literal `{"row_key": row_key, **obj}` lets
`obj` overwrite the provenance key (see the counterexample). -/
theorem c3_row_bounds {gen : List Char → List Char} {req : FreestyleRequest}
    {out : RowsResult} (hbs : 1 ≤ req.batch_size)
    (h : process_rows_freestyle gen req = some out) :
    out.processed_count ≤ out.total_count ∧
    ∀ o ∈ out.results, ∃ kv ∈ req.data, ∃ kvs kvs',
      run_row gen req kv.1 kv.2 = some (kv.1, Json.obj kvs) ∧
      o = Json.obj kvs' ∧
      (objGet kvs' "row_key".data).isSome = true ∧
      (objGet kvs "row_key".data = none →
        objGet kvs' "row_key".data = some (Json.str kv.1)) := by
  have h2 := (@rows_results gen req hbs).symm.trans h
  injection h2 with h3
  subst h3
  constructor
  · show (sliceResults gen req req.data).length ≤ req.data.length
    rw [sliceResults_eq]
    exact List.length_filterMap_le _ _
  · intro o ho
    obtain ⟨kv, hkv, kvs, hrun, rfl⟩ := sliceResults_mem ho
    obtain ⟨kvs', hmerge, hsome, hfresh⟩ := @mergeRowKey_get kv.1 kvs
    exact ⟨kv, hkv, kvs, kvs', hrun, hmerge, hsome, hfresh⟩

/-- Claim C3 counterexample: a reply of `{"row_key": "evil"}` overwrites
the provenance key, so the returned `row_key` is not a key of the
original rows mapping. -/
theorem c3_counterexample :
    process_rows_freestyle genRowKey reqOneRow
      = some (RowsResult.mk true [Json.obj [("row_key".data, Json.str "evil".data)]] 1 1) ∧
    "evil".data ∉ reqOneRow.data.map Prod.fst :=
  ⟨rfl, by decide⟩

/-- Claim C3 witness: a one-row request whose reply has no `row_key` of
its own keeps the provenance key `r1`. -/
theorem c3_witness :
    (RowsResult.mk true [Json.obj [("row_key".data, Json.str "r1".data),
        ("summary".data, Json.str "ok".data)]] 1 1).processed_count
      ≤ (RowsResult.mk true [Json.obj [("row_key".data, Json.str "r1".data),
        ("summary".data, Json.str "ok".data)]] 1 1).total_count ∧
    ∀ o ∈ (RowsResult.mk true [Json.obj [("row_key".data, Json.str "r1".data),
        ("summary".data, Json.str "ok".data)]] 1 1).results, ∃ kv ∈ reqOneRow.data, ∃ kvs kvs',
      run_row genSummary reqOneRow kv.1 kv.2 = some (kv.1, Json.obj kvs) ∧
      o = Json.obj kvs' ∧
      (objGet kvs' "row_key".data).isSome = true ∧
      (objGet kvs "row_key".data = none →
        objGet kvs' "row_key".data = some (Json.str kv.1)) :=
  @c3_row_bounds genSummary reqOneRow
    (RowsResult.mk true [Json.obj [("row_key".data, Json.str "r1".data),
      ("summary".data, Json.str "ok".data)]] 1 1) (by decide) rfl

/-- Claim C7 (confirmed). The orchestrator's slices are exactly the
consecutive windows of the input: they concatenate back to the item list,
every slice is non-empty with length at most `batch_size`, every slice but
the last has length exactly `batch_size`, the pipeline's results are the
per-slice successes appended strictly in slice order, and 23 items with
`batch_size = 10` give slices of sizes 10, 10, 3. -/
theorem c7_batches {bs : Int} (hbs : 1 ≤ bs) (items : List (List Char × List Json)) :
    (∃ cs, slicesOf items bs = some cs ∧ cs.flatten = items ∧
      (∀ c ∈ cs, c ≠ [] ∧ c.length ≤ bs.toNat) ∧
      ∀ i, i + 1 < cs.length → (cs.getD i []).length = bs.toNat) ∧
    (∀ gen req, req.batch_size = bs → req.data = items →
      process_rows_freestyle gen req = some (RowsResult.mk true
        (((chunksOf bs.toNat items).map (sliceResults gen req)).flatten)
        (((chunksOf bs.toNat items).map (sliceResults gen req)).flatten).length
        items.length)) ∧
    ∃ cs23, slicesOf items23 (10 : Int) = some cs23 ∧
      cs23.map List.length = [10, 10, 3] ∧ cs23.flatten = items23 := by
  have hbn : 0 < bs.toNat := by omega
  refine ⟨⟨chunksOf bs.toNat items, slicesOf_chunks hbs items,
      chunks_join hbn items.length items le_rfl,
      chunks_mem hbn items.length items le_rfl,
      chunks_not_last hbn items.length items le_rfl⟩, ?_, ?_⟩
  · intro gen req hb hd
    subst hd
    rw [rows_results (by omega)]
    rw [map_flatten_hom (sliceResults gen req) (sliceResults_append gen req) rfl,
      chunks_join hbn req.data.length req.data le_rfl]
  · exact ⟨chunksOf 10 items23, slicesOf_chunks (by norm_num) items23, rfl, rfl⟩

/-- Claim C7 witness: the conclusion at 23 items and `batch_size = 10`. -/
theorem c7_witness :
    (∃ cs, slicesOf items23 (10 : Int) = some cs ∧ cs.flatten = items23 ∧
      (∀ c ∈ cs, c ≠ [] ∧ c.length ≤ (10 : Int).toNat) ∧
      ∀ i, i + 1 < cs.length → (cs.getD i []).length = (10 : Int).toNat) ∧
    (∀ gen req, req.batch_size = (10 : Int) → req.data = items23 →
      process_rows_freestyle gen req = some (RowsResult.mk true
        (((chunksOf (10 : Int).toNat items23).map (sliceResults gen req)).flatten)
        (((chunksOf (10 : Int).toNat items23).map (sliceResults gen req)).flatten).length
        items23.length)) ∧
    ∃ cs23, slicesOf items23 (10 : Int) = some cs23 ∧
      cs23.map List.length = [10, 10, 3] ∧ cs23.flatten = items23 :=
  c7_batches (by norm_num) items23

/-- Claim C8 (confirmed). Row-mode output order is deterministic and
preserves input order: splitting the input around two items `kv1` before
`kv2` that both survive `run_row`, the results list is exactly the
surviving outputs in input order, with `kv1`'s merged object strictly
before `kv2`'s. -/
theorem c8_order {gen : List Char → List Char} {req : FreestyleRequest} {out : RowsResult}
    {l1 l2 l3 : List (List Char × List Json)} {kv1 kv2 : List Char × List Json} {o1 o2 : Json}
    (hbs : 1 ≤ req.batch_size)
    (hdata : req.data = l1 ++ kv1 :: (l2 ++ kv2 :: l3))
    (h : process_rows_freestyle gen req = some out)
    (h1 : rowOut gen req kv1 = some o1) (h2 : rowOut gen req kv2 = some o2) :
    out.results = l1.filterMap (rowOut gen req) ++ o1 :: (l2.filterMap (rowOut gen req)
      ++ o2 :: l3.filterMap (rowOut gen req)) := by
  have h3 := (@rows_results gen req hbs).symm.trans h
  injection h3 with h4
  subst h4
  show sliceResults gen req req.data = _
  rw [sliceResults_eq, hdata]
  simp [List.filterMap_append, List.filterMap_cons, h1, h2]

/-- Claim C8 witness: two surviving rows `r1`, `r2` appear in input
order. -/
theorem c8_witness :
    (RowsResult.mk true
      [Json.obj [("row_key".data, Json.str "r1".data), ("summary".data, Json.str "ok".data)],
       Json.obj [("row_key".data, Json.str "r2".data), ("summary".data, Json.str "ok".data)]]
      2 2).results
      = List.filterMap (rowOut genSummary reqTwoRows) []
        ++ Json.obj [("row_key".data, Json.str "r1".data), ("summary".data, Json.str "ok".data)]
          :: (List.filterMap (rowOut genSummary reqTwoRows) []
        ++ Json.obj [("row_key".data, Json.str "r2".data), ("summary".data, Json.str "ok".data)]
          :: List.filterMap (rowOut genSummary reqTwoRows) []) :=
  @c8_order genSummary reqTwoRows
    (RowsResult.mk true
      [Json.obj [("row_key".data, Json.str "r1".data), ("summary".data, Json.str "ok".data)],
       Json.obj [("row_key".data, Json.str "r2".data), ("summary".data, Json.str "ok".data)]]
      2 2)
    [] [] [] ("r1".data, [Json.str "a".data]) ("r2".data, [Json.str "b".data])
    (Json.obj [("row_key".data, Json.str "r1".data), ("summary".data, Json.str "ok".data)])
    (Json.obj [("row_key".data, Json.str "r2".data), ("summary".data, Json.str "ok".data)])
    (by decide) rfl rfl rfl rfl
